import Mathlib

/-!
Verification of the selection-expression compiler
(`src/gromacs/selection/compiler.cpp`).

The development shallowly embeds the data model and the compilation passes
of the selection compiler.  Groups (`gmx_ana_index_t`) are modelled as
sorted, duplicate-free lists of natural numbers; the index-set operations
(`gmx_ana_index_intersection`, `_union`, `_difference`, `_merge`) live in
`indexutil.cpp`, which is not part of this tree, and are therefore modelled
from the specification.  Everything else is translated from `compiler.cpp`.
-/

namespace GmxSel

/-! ### Index-set utilities

Modelled from the spec: `indexutil.cpp` (the home of the `gmx_ana_index_*`
functions) is not in the tree.  Spec §4.1: all binary set operations accept
two sorted, duplicate-free sequences and produce a sorted, duplicate-free
result; `merge` assumes (without checking) that its inputs are disjoint.
A group is a sorted, duplicate-free list of atom indices. -/

abbrev IndexGroup := List Nat

/-- The invariant of a `gmx_ana_index_t`: sorted ascending, no duplicates. -/
def IsIndexGroup (g : IndexGroup) : Prop := List.Sorted (· < ·) g

instance : DecidablePred IsIndexGroup := fun g =>
  decidable_of_iff (List.Sorted (· < ·) g) Iff.rfl

/-- Modelled from the spec: intersection of two sorted index groups
(`gmx_ana_index_intersection`). -/
def gmx_ana_index_intersection (a b : IndexGroup) : IndexGroup :=
  a.filter (fun x => decide (x ∈ b))

/-- Modelled from the spec: set difference of two sorted index groups
(`gmx_ana_index_difference`). -/
def gmx_ana_index_difference (a b : IndexGroup) : IndexGroup :=
  a.filter (fun x => decide (x ∉ b))

/-- Modelled from the spec: union of two sorted index groups, preserving
sort order and removing duplicates (`gmx_ana_index_union`). -/
def gmx_ana_index_union : IndexGroup → IndexGroup → IndexGroup
  | [], b => b
  | a, [] => a
  | x :: a, y :: b =>
    if x < y then x :: gmx_ana_index_union a (y :: b)
    else if y < x then y :: gmx_ana_index_union (x :: a) b
    else x :: gmx_ana_index_union a b
termination_by a b => a.length + b.length

/-- Modelled from the spec: merge of two sorted index groups that the caller
guarantees to be disjoint (`gmx_ana_index_merge`); cheaper than a general
union because no equality check is needed.  On disjoint inputs it agrees
with `gmx_ana_index_union`. -/
def gmx_ana_index_merge : IndexGroup → IndexGroup → IndexGroup
  | [], b => b
  | a, [] => a
  | x :: a, y :: b =>
    if x ≤ y then x :: gmx_ana_index_merge a (y :: b)
    else y :: gmx_ana_index_merge (x :: a) b
termination_by a b => a.length + b.length

theorem mem_index_intersection {a b : IndexGroup} {x : Nat} :
    x ∈ gmx_ana_index_intersection a b ↔ x ∈ a ∧ x ∈ b := by
  simp [gmx_ana_index_intersection]

theorem mem_index_difference {a b : IndexGroup} {x : Nat} :
    x ∈ gmx_ana_index_difference a b ↔ x ∈ a ∧ x ∉ b := by
  simp [gmx_ana_index_difference]

theorem mem_index_union {a b : IndexGroup} {x : Nat} :
    x ∈ gmx_ana_index_union a b ↔ x ∈ a ∨ x ∈ b := by
  induction a, b using gmx_ana_index_union.induct with
  | case1 b => simp [gmx_ana_index_union]
  | case2 a h => cases a <;> simp [gmx_ana_index_union]
  | case3 x a y b hlt ih =>
      simp only [gmx_ana_index_union, if_pos hlt, List.mem_cons, ih]
      tauto
  | case4 x a y b hlt hgt ih =>
      simp only [gmx_ana_index_union, if_neg hlt, if_pos hgt, List.mem_cons, ih]
      tauto
  | case5 x a y b hlt hgt ih =>
      have hxy : x = y := by omega
      subst hxy
      simp only [gmx_ana_index_union, if_neg hlt, if_neg hgt, List.mem_cons, ih]
      tauto

theorem mem_index_merge {a b : IndexGroup} {x : Nat} :
    x ∈ gmx_ana_index_merge a b ↔ x ∈ a ∨ x ∈ b := by
  induction a, b using gmx_ana_index_merge.induct with
  | case1 b => simp [gmx_ana_index_merge]
  | case2 a h => cases a <;> simp [gmx_ana_index_merge]
  | case3 x a y b hle ih =>
      simp only [gmx_ana_index_merge, if_pos hle, List.mem_cons, ih]
      tauto
  | case4 x a y b hgt ih =>
      simp only [gmx_ana_index_merge, if_neg hgt, List.mem_cons, ih]
      tauto

theorem isIndexGroup_intersection {a : IndexGroup} (b : IndexGroup)
    (ha : IsIndexGroup a) : IsIndexGroup (gmx_ana_index_intersection a b) :=
  List.Sorted.filter _ ha

theorem isIndexGroup_difference {a : IndexGroup} (b : IndexGroup)
    (ha : IsIndexGroup a) : IsIndexGroup (gmx_ana_index_difference a b) :=
  List.Sorted.filter _ ha

theorem isIndexGroup_union {a b : IndexGroup}
    (ha : IsIndexGroup a) (hb : IsIndexGroup b) :
    IsIndexGroup (gmx_ana_index_union a b) := by
  induction a, b using gmx_ana_index_union.induct with
  | case1 b => simpa [gmx_ana_index_union] using hb
  | case2 a h => cases a <;> simp_all [gmx_ana_index_union]
  | case3 x a y b hlt ih =>
      simp only [IsIndexGroup] at ha hb ⊢
      rw [List.sorted_cons] at ha
      simp only [gmx_ana_index_union, if_pos hlt, List.sorted_cons]
      refine ⟨fun w hw => ?_, ih ha.2 hb⟩
      rcases mem_index_union.mp hw with h | h
      · exact ha.1 w h
      · rcases List.mem_cons.mp h with rfl | h
        · exact hlt
        · simp only [IsIndexGroup, List.sorted_cons] at hb
          exact Nat.lt_trans hlt (hb.1 w h)
  | case4 x a y b hlt hgt ih =>
      simp only [IsIndexGroup] at ha hb ⊢
      rw [List.sorted_cons] at hb
      simp only [gmx_ana_index_union, if_neg hlt, if_pos hgt, List.sorted_cons]
      refine ⟨fun w hw => ?_, ih ha hb.2⟩
      rcases mem_index_union.mp hw with h | h
      · rcases List.mem_cons.mp h with rfl | h
        · exact hgt
        · simp only [IsIndexGroup, List.sorted_cons] at ha
          exact Nat.lt_trans hgt (ha.1 w h)
      · exact hb.1 w h
  | case5 x a y b hlt hgt ih =>
      have hxy : x = y := by omega
      subst hxy
      simp only [IsIndexGroup] at ha hb ⊢
      rw [List.sorted_cons] at ha hb
      simp only [gmx_ana_index_union, if_neg hlt, if_neg hgt, List.sorted_cons]
      refine ⟨fun w hw => ?_, ih ha.2 hb.2⟩
      rcases mem_index_union.mp hw with h | h
      · exact ha.1 w h
      · exact hb.1 w h

/-- Two groups are disjoint when no index belongs to both. -/
def GrpDisjoint (a b : IndexGroup) : Prop := ∀ x ∈ a, x ∉ b

instance (a b : IndexGroup) : Decidable (GrpDisjoint a b) :=
  decidable_of_iff (∀ x ∈ a, x ∉ b) Iff.rfl

theorem isIndexGroup_merge {a b : IndexGroup}
    (ha : IsIndexGroup a) (hb : IsIndexGroup b) (hd : GrpDisjoint a b) :
    IsIndexGroup (gmx_ana_index_merge a b) := by
  induction a, b using gmx_ana_index_merge.induct with
  | case1 b => simpa [gmx_ana_index_merge] using hb
  | case2 a h => cases a <;> simp_all [gmx_ana_index_merge]
  | case3 x a y b hle ih =>
      simp only [IsIndexGroup] at ha hb ⊢
      rw [List.sorted_cons] at ha
      have hxy : x < y := by
        rcases Nat.lt_or_ge x y with h | h
        · exact h
        · have : x = y := by omega
          subst this
          exact absurd (hd x (by simp) (by simp)) id
      simp only [gmx_ana_index_merge, if_pos hle, List.sorted_cons]
      refine ⟨fun w hw => ?_, ih ha.2 hb (fun z hz hz' => hd z (by simp [hz]) hz')⟩
      rcases mem_index_merge.mp hw with h | h
      · exact ha.1 w h
      · rcases List.mem_cons.mp h with rfl | h
        · exact hxy
        · simp only [IsIndexGroup, List.sorted_cons] at hb
          exact Nat.lt_trans hxy (hb.1 w h)
  | case4 x a y b hgt ih =>
      simp only [IsIndexGroup] at ha hb ⊢
      rw [List.sorted_cons] at hb
      have hyx : y < x := by omega
      simp only [gmx_ana_index_merge, if_neg hgt, List.sorted_cons]
      refine ⟨fun w hw => ?_, ih ha hb.2 (fun z hz hz' => hd z hz (by simp [hz']))⟩
      rcases mem_index_merge.mp hw with h | h
      · rcases List.mem_cons.mp h with rfl | h
        · exact hyx
        · simp only [IsIndexGroup, List.sorted_cons] at ha
          exact Nat.lt_trans hyx (ha.1 w h)
      · exact hb.1 w h

theorem isIndexGroup_nodup {a : IndexGroup} (ha : IsIndexGroup a) : a.Nodup :=
  List.Sorted.nodup ha

/-- Sorted duplicate-free lists with the same members are equal. -/
theorem indexGroup_ext {a b : IndexGroup}
    (ha : IsIndexGroup a) (hb : IsIndexGroup b)
    (h : ∀ x, x ∈ a ↔ x ∈ b) : a = b := by
  haveI : IsAntisymm Nat (· < ·) := ⟨fun p q h1 h2 => absurd h2 (by omega)⟩
  have hperm : a.Perm b :=
    (List.perm_ext_iff_of_nodup (isIndexGroup_nodup ha) (isIndexGroup_nodup hb)).mpr h
  exact List.eq_of_perm_of_sorted hperm ha hb

/-- A sorted list whose members all lie in another sorted list is a sublist
of it. -/
theorem indexGroup_sublist {a b : IndexGroup}
    (ha : IsIndexGroup a) (hb : IsIndexGroup b)
    (h : ∀ x, x ∈ a → x ∈ b) : a.Sublist b := by
  induction b generalizing a with
  | nil =>
      cases a with
      | nil => exact List.Sublist.refl _
      | cons x a => exact absurd (h x (by simp)) (by simp)
  | cons y b ihb =>
      cases a with
      | nil => exact List.nil_sublist _
      | cons x a =>
          simp only [IsIndexGroup, List.sorted_cons] at ha hb
          by_cases hxy : x = y
          · subst hxy
            refine List.Sublist.cons₂ x (ihb ha.2 hb.2 ?_)
            intro z hz
            have hz' := h z (by simp [hz])
            rcases List.mem_cons.mp hz' with rfl | hz'
            · exact absurd (ha.1 z hz) (by omega)
            · exact hz'
          · refine List.Sublist.cons y (ihb (by simp only [IsIndexGroup, List.sorted_cons]; exact ha) hb.2 ?_)
            intro z hz
            have hz' := h z hz
            rcases List.mem_cons.mp hz' with rfl | hz'
            · rcases List.mem_cons.mp hz with rfl | hz2
              · exact absurd rfl hxy
              · have h1 := ha.1 z hz2
                have h2 := h x (by simp)
                rcases List.mem_cons.mp h2 with rfl | h2
                · omega
                · have := hb.1 x h2
                  omega
            · exact hz'

theorem indexGroup_length_le {a b : IndexGroup}
    (ha : IsIndexGroup a) (hb : IsIndexGroup b)
    (h : ∀ x, x ∈ a → x ∈ b) : a.length ≤ b.length :=
  (indexGroup_sublist ha hb h).length_le

/-- For sorted duplicate-free lists, being longer while containing the other
is the same as being a strict superset. -/
theorem indexGroup_lt_length_iff {a b : IndexGroup}
    (ha : IsIndexGroup a) (hb : IsIndexGroup b)
    (h : ∀ x, x ∈ a → x ∈ b) :
    a.length < b.length ↔ ∃ x, x ∈ b ∧ x ∉ a := by
  constructor
  · intro hlen
    by_contra hc
    push_neg at hc
    have : b.length ≤ a.length :=
      indexGroup_length_le hb ha (fun x hx => by
        by_contra hxa
        exact hxa (hc x hx))
    omega
  · intro ⟨x, hxb, hxa⟩
    have hsub := indexGroup_sublist ha hb h
    rcases Nat.lt_or_ge a.length b.length with h' | h'
    · exact h'
    · have : a.length = b.length := by
        have := hsub.length_le
        omega
      have : a = b := hsub.eq_of_length this
      subst this
      exact absurd hxb hxa

/-! ### Evaluation functions

The evaluation functions assigned by `init_item_evalfunc` (compiler.cpp,
lines 1058-1135).  An element's `evaluate` pointer is one of these or
`NULL`; during analysis it is overridden with `analyze_static`. -/

inductive SelEvalFn where
  | nullFn
  | evaluateStatic
  | evaluateMethod
  | evaluateArithmetic
  | evaluateModifier
  | evaluateNot
  | evaluateAnd
  | evaluateOr
  | evaluateRoot
  | evaluateSubexprSimple
  | evaluateSubexpr
  | evaluateSubexprStaticeval
  | evaluateSubexprrefSimple
  | evaluateSubexprref
  | analyzeStatic
deriving Repr, DecidableEq

/-! ### Compiler data and its deallocation (claim C10)

`t_compiler_data` (compiler.cpp around line 190) carries the compiler
flags, the saved real evaluation function, and the `gmin`/`gmax` groups.
`_gmx_selelem_free_compiler_data` (lines 430-448) releases it. -/

/-- The compiler flag set `SEL_CDATA_*` of `t_compiler_data::flags`. -/
structure CdataFlags where
  fulleval : Bool
  staticFlg : Bool
  staticeval : Bool
  evalmax : Bool
  minmaxalloc : Bool
  dominmax : Bool
  simplesubexpr : Bool
  commonsubexpr : Bool
deriving Repr, DecidableEq

/-- `t_compiler_data`: the per-element compiler bookkeeping. -/
structure t_compiler_data where
  evaluate : SelEvalFn
  flags : CdataFlags
  gmin : IndexGroup
  gmax : IndexGroup
deriving Repr, DecidableEq

/-- The slice of `t_selelem` that `_gmx_selelem_free_compiler_data` touches:
the current evaluation-function pointer and the compiler-data annotation. -/
structure SelElemCd where
  evaluate : SelEvalFn
  cdata : Option t_compiler_data
deriving Repr, DecidableEq

/-- Translation of `_gmx_selelem_free_compiler_data` (compiler.cpp lines
430-448).  The second component records the groups handed to
`gmx_ana_index_deinit`/`sfree`, which happens only under
`SEL_CDATA_MINMAXALLOC`; the compiler data itself is always freed when
present, and `sel->cdata` is reset to `NULL`. -/
def _gmx_selelem_free_compiler_data (sel : SelElemCd) :
    SelElemCd × List IndexGroup :=
  match sel.cdata with
  | some cd =>
      ({ evaluate := cd.evaluate, cdata := none },
       if cd.flags.minmaxalloc then [cd.gmin, cd.gmax] else [])
  | none => ({ sel with cdata := none }, [])

/-- **C10.** When compiler data is present, `_gmx_selelem_free_compiler_data`
restores the element's `evaluate` pointer to the real evaluation function
saved in the compiler data, frees the `gmin`/`gmax` groups exactly when the
`SEL_CDATA_MINMAXALLOC` flag records that the compiler allocated them, and
nulls the annotation pointer; when the annotation pointer is already null
the element is left unchanged, so the function is idempotent. -/
theorem free_compiler_data_spec (sel : SelElemCd) :
    (∀ cd, sel.cdata = some cd →
        (_gmx_selelem_free_compiler_data sel).1.evaluate = cd.evaluate ∧
        (_gmx_selelem_free_compiler_data sel).1.cdata = none ∧
        (_gmx_selelem_free_compiler_data sel).2 =
          (if cd.flags.minmaxalloc then [cd.gmin, cd.gmax] else [])) ∧
    (sel.cdata = none → _gmx_selelem_free_compiler_data sel = (sel, [])) ∧
    _gmx_selelem_free_compiler_data (_gmx_selelem_free_compiler_data sel).1 =
      ((_gmx_selelem_free_compiler_data sel).1, []) := by
  refine ⟨fun cd hcd => ?_, fun hnone => ?_, ?_⟩
  · simp [_gmx_selelem_free_compiler_data, hcd]
  · cases sel with
    | mk ev cda =>
        cases hnone
        simp [_gmx_selelem_free_compiler_data]
  · cases h : sel.cdata <;> simp [_gmx_selelem_free_compiler_data, h]

/-- Witness for C10 at a concrete element carrying allocated bounds. -/
theorem free_compiler_data_spec_witness :
    (_gmx_selelem_free_compiler_data
        { evaluate := SelEvalFn.analyzeStatic,
          cdata := some
            { evaluate := SelEvalFn.evaluateAnd,
              flags := { fulleval := false, staticFlg := false,
                         staticeval := true, evalmax := true,
                         minmaxalloc := true, dominmax := true,
                         simplesubexpr := false, commonsubexpr := false },
              gmin := [1, 2], gmax := [1, 2, 5] } }).1.evaluate =
      SelEvalFn.evaluateAnd := by
  have h := (free_compiler_data_spec
      { evaluate := SelEvalFn.analyzeStatic,
        cdata := some
          { evaluate := SelEvalFn.evaluateAnd,
            flags := { fulleval := false, staticFlg := false,
                       staticeval := true, evalmax := true,
                       minmaxalloc := true, dominmax := true,
                       simplesubexpr := false, commonsubexpr := false },
            gmin := [1, 2], gmax := [1, 2, 5] } }).1 _ rfl
  exact h.1

/-! ### Errors

The error classes thrown by the compiler (`GMX_THROW` sites in
compiler.cpp); the spec groups `notImplemented` and `inconsistentInput`
under its `UnsupportedExpression` kind and `internalError`/`apiError`
under `InternalInconsistency`. -/

inductive SelError where
  | notImplemented (msg : String)
  | inconsistentInput (msg : String)
  | internalError (msg : String)
  | apiError (msg : String)
deriving Repr, DecidableEq

/-- The boolean operation type `e_boolean_t`. -/
inductive e_boolean_t where
  | bool_not
  | bool_and
  | bool_or
  | bool_xor
deriving Repr, DecidableEq

/-! ### Boolean minimum/maximum group computation (claims C2, C3)

`evaluate_boolean_minmax_grps` (compiler.cpp lines 1926-1998) computes the
`gmin`/`gmax` bounds of a dynamic boolean element from the bounds already
stored in its children's compiler data, and may update the folded static
constant sitting in the first child. -/

/-- The slice of a child `t_selelem` read and written by
`evaluate_boolean_minmax_grps`: its compiler bounds (`cdata->gmin`,
`cdata->gmax`), its `SEL_CDATA_STATIC` flag, its stored value group
(`v.u.g`) and its compiler group (`u.cgrp`). -/
structure MinMaxChild where
  gmin : IndexGroup
  gmax : IndexGroup
  cstatic : Bool
  vGrp : IndexGroup
  cgrp : IndexGroup
deriving Repr, DecidableEq

/-- The `BOOL_AND` accumulation loop of `evaluate_boolean_minmax_grps`
(lines 1944-1950): `while (child && gmax->isize > 0)` intersect both
accumulators with the next child's bounds. -/
def bool_and_minmax_loop (gmin gmax : IndexGroup) :
    List MinMaxChild → IndexGroup × IndexGroup
  | [] => (gmin, gmax)
  | c :: rest =>
    if gmax.length > 0 then
      bool_and_minmax_loop (gmx_ana_index_intersection gmin c.gmin)
        (gmx_ana_index_intersection gmax c.gmax) rest
    else (gmin, gmax)

/-- The `BOOL_OR` accumulation loop of `evaluate_boolean_minmax_grps`
(lines 1972-1978): `while (child && gmin->isize < g->isize)` merge the
(disjoint) child `gmin`s and union the child `gmax`s. -/
def bool_or_minmax_loop (g : IndexGroup) (gmin gmax : IndexGroup) :
    List MinMaxChild → IndexGroup × IndexGroup
  | [] => (gmin, gmax)
  | c :: rest =>
    if gmin.length < g.length then
      bool_or_minmax_loop g (gmx_ana_index_merge gmin c.gmin)
        (gmx_ana_index_union gmax c.gmax) rest
    else (gmin, gmax)

/-- Translation of `evaluate_boolean_minmax_grps` (compiler.cpp lines
1926-1998) for a boolean element with first child `child1` and remaining
children `rest`, evaluated for group `g`.  Returns the computed
`(gmin, gmax)` pair and the (possibly updated) first child. -/
def evaluate_boolean_minmax_grps (boolt : e_boolean_t) (g : IndexGroup)
    (child1 : MinMaxChild) (rest : List MinMaxChild) :
    Except SelError (IndexGroup × IndexGroup × MinMaxChild) :=
  match boolt with
  | .bool_not =>
      Except.ok (gmx_ana_index_difference g child1.gmax,
                 gmx_ana_index_difference g child1.gmin,
                 child1)
  | .bool_and =>
      let r := bool_and_minmax_loop child1.gmin child1.gmax rest
      let child1' :=
        if child1.cstatic && decide (child1.vGrp.length > r.2.length) then
          { child1 with
            vGrp := r.2
            cgrp := if child1.cgrp.length > 0 then r.2 else child1.cgrp }
        else child1
      Except.ok (r.1, r.2, child1')
  | .bool_or =>
      let r := bool_or_minmax_loop g child1.gmin child1.gmax rest
      let child1' :=
        if child1.cstatic && decide (child1.vGrp.length < r.1.length) then
          { child1 with
            vGrp := r.1
            cgrp := if child1.cgrp.length > 0 then r.1 else child1.cgrp }
        else child1
      Except.ok (r.1, r.2, child1')
  | .bool_xor =>
      Except.error (SelError.notImplemented "xor expressions not implemented")

theorem intersection_nil_left (b : IndexGroup) :
    gmx_ana_index_intersection [] b = [] := rfl

theorem intersection_subset_left {a b : IndexGroup} :
    ∀ x ∈ gmx_ana_index_intersection a b, x ∈ a :=
  fun _ hx => (mem_index_intersection.mp hx).1

theorem eq_nil_of_subset_nil {a : IndexGroup} (h : ∀ x ∈ a, x ∈ ([] : IndexGroup)) :
    a = [] := by
  cases a with
  | nil => rfl
  | cons x a => exact absurd (h x (by simp)) (by simp)

/-- The AND loop with its early exit computes the same two lists as the
unconditional intersection over all children, provided every child's
`gmin` is contained in its `gmax`. -/
theorem bool_and_minmax_loop_eq (rest : List MinMaxChild) :
    ∀ gmin gmax : IndexGroup,
    (∀ x ∈ gmin, x ∈ gmax) →
    (∀ c ∈ rest, ∀ x ∈ c.gmin, x ∈ c.gmax) →
    bool_and_minmax_loop gmin gmax rest =
      (rest.foldl (fun acc c => gmx_ana_index_intersection acc c.gmin) gmin,
       rest.foldl (fun acc c => gmx_ana_index_intersection acc c.gmax) gmax) := by
  induction rest with
  | nil => intro gmin gmax _ _; rfl
  | cons c rest ih =>
      intro gmin gmax hsub hrest
      by_cases hmax : gmax.length > 0
      · rw [bool_and_minmax_loop, if_pos hmax, List.foldl_cons, List.foldl_cons]
        exact ih _ _
          (fun x hx => by
            rcases mem_index_intersection.mp hx with ⟨h1, h2⟩
            exact mem_index_intersection.mpr
              ⟨hsub x h1, hrest c (by simp) x h2⟩)
          (fun d hd => hrest d (by simp [hd]))
      · have hgmax : gmax = [] := by
          cases gmax with
          | nil => rfl
          | cons y l => simp at hmax
        subst hgmax
        have hgmin : gmin = [] := eq_nil_of_subset_nil hsub
        subst hgmin
        rw [bool_and_minmax_loop, if_neg (by simp)]
        have h1 : ∀ l : List MinMaxChild,
            l.foldl (fun acc c => gmx_ana_index_intersection acc c.gmin) [] = [] := by
          intro l
          induction l with
          | nil => rfl
          | cons d l ihl => rw [List.foldl_cons, intersection_nil_left]; exact ihl
        have h2 : ∀ l : List MinMaxChild,
            l.foldl (fun acc c => gmx_ana_index_intersection acc c.gmax) [] = [] := by
          intro l
          induction l with
          | nil => rfl
          | cons d l ihl => rw [List.foldl_cons, intersection_nil_left]; exact ihl
        rw [List.foldl_cons, List.foldl_cons, intersection_nil_left,
            intersection_nil_left, h1, h2]

theorem foldl_intersection_subset (l : List IndexGroup) :
    ∀ a : IndexGroup, ∀ x ∈ l.foldl gmx_ana_index_intersection a, x ∈ a := by
  induction l with
  | nil => intro a x hx; exact hx
  | cons b l ih =>
      intro a x hx
      rw [List.foldl_cons] at hx
      exact intersection_subset_left x (ih _ x hx)

theorem foldl_intersection_sorted (l : List IndexGroup) :
    ∀ a : IndexGroup, IsIndexGroup a →
      IsIndexGroup (l.foldl gmx_ana_index_intersection a) := by
  induction l with
  | nil => intro a ha; exact ha
  | cons b l ih =>
      intro a ha
      rw [List.foldl_cons]
      exact ih _ (isIndexGroup_intersection b ha)

theorem merge_nil_right (a : IndexGroup) : gmx_ana_index_merge a [] = a := by
  cases a <;> simp [gmx_ana_index_merge]

theorem union_eq_left {a b : IndexGroup}
    (ha : IsIndexGroup a) (hb : IsIndexGroup b) (h : ∀ x ∈ b, x ∈ a) :
    gmx_ana_index_union a b = a := by
  refine indexGroup_ext (isIndexGroup_union ha hb) ha (fun x => ?_)
  rw [mem_index_union]
  exact ⟨fun hx => hx.elim id (h x), Or.inl⟩

theorem foldl_merge_init_subset (rest : List MinMaxChild) :
    ∀ acc : IndexGroup, ∀ x ∈ acc,
      x ∈ rest.foldl (fun a c => gmx_ana_index_merge a c.gmin) acc := by
  induction rest with
  | nil => intro acc x hx; exact hx
  | cons c rest ih =>
      intro acc x hx
      rw [List.foldl_cons]
      exact ih _ x (mem_index_merge.mpr (Or.inl hx))

theorem foldl_merge_sorted (rest : List MinMaxChild) :
    ∀ gmin : IndexGroup, IsIndexGroup gmin →
    (∀ c ∈ rest, IsIndexGroup c.gmin) →
    (∀ c ∈ rest, GrpDisjoint gmin c.gmin) →
    List.Pairwise (fun c d => GrpDisjoint c.gmin d.gmin) rest →
    IsIndexGroup (rest.foldl (fun a c => gmx_ana_index_merge a c.gmin) gmin) := by
  induction rest with
  | nil => intro gmin h _ _ _; exact h
  | cons c rest ih =>
      intro gmin hs hcs hd hp
      rw [List.foldl_cons]
      rw [List.pairwise_cons] at hp
      refine ih _ (isIndexGroup_merge hs (hcs c (by simp)) (hd c (by simp)))
        (fun d hdm => hcs d (by simp [hdm])) (fun d hdm => ?_) hp.2
      intro x hx
      rcases mem_index_merge.mp hx with h1 | h1
      · exact hd d (by simp [hdm]) x h1
      · exact hp.1 d hdm x h1

theorem foldl_merge_collapse (rest : List MinMaxChild) :
    ∀ acc : IndexGroup,
    (∀ c ∈ rest, ∀ x ∈ c.gmin, x ∈ acc) →
    (∀ c ∈ rest, GrpDisjoint acc c.gmin) →
    rest.foldl (fun a c => gmx_ana_index_merge a c.gmin) acc = acc := by
  induction rest with
  | nil => intro acc _ _; rfl
  | cons c rest ih =>
      intro acc hsub hd
      have hnil : c.gmin = [] := by
        cases hmem : c.gmin with
        | nil => rfl
        | cons y l =>
            exact absurd (hsub c (by simp) y (by simp [hmem]))
              (fun hy => hd c (by simp) y hy (by simp [hmem]))
      rw [List.foldl_cons, hnil, merge_nil_right]
      exact ih acc (fun d hdm => hsub d (by simp [hdm]))
        (fun d hdm => hd d (by simp [hdm]))

theorem foldl_union_collapse (rest : List MinMaxChild) :
    ∀ acc : IndexGroup, IsIndexGroup acc →
    (∀ c ∈ rest, IsIndexGroup c.gmax) →
    (∀ c ∈ rest, ∀ x ∈ c.gmax, x ∈ acc) →
    rest.foldl (fun a c => gmx_ana_index_union a c.gmax) acc = acc := by
  induction rest with
  | nil => intro acc _ _ _; rfl
  | cons c rest ih =>
      intro acc ha hcs hsub
      rw [List.foldl_cons, union_eq_left ha (hcs c (by simp)) (hsub c (by simp))]
      exact ih acc ha (fun d hdm => hcs d (by simp [hdm]))
        (fun d hdm => hsub d (by simp [hdm]))

/-- The per-child facts that hold for the children of a dynamic OR element
when `evaluate_boolean_minmax_grps` is reached during analysis for group
`g`: the child bounds are well-formed groups with `gmin ⊆ gmax ⊆ g`. -/
def OrChildOk (g : IndexGroup) (c : MinMaxChild) : Prop :=
  IsIndexGroup c.gmin ∧ IsIndexGroup c.gmax ∧
  (∀ x ∈ c.gmin, x ∈ c.gmax) ∧ (∀ x ∈ c.gmax, x ∈ g)

instance (g : IndexGroup) (c : MinMaxChild) : Decidable (OrChildOk g c) := by
  unfold OrChildOk
  infer_instance

/-- The OR loop with its early exit computes the same two lists as the
unconditional merge/union over all children, given the pass invariants. -/
theorem bool_or_minmax_loop_eq {g : IndexGroup} (hg : IsIndexGroup g)
    (rest : List MinMaxChild) :
    ∀ gmin gmax : IndexGroup,
    IsIndexGroup gmin → IsIndexGroup gmax →
    (∀ x ∈ gmin, x ∈ gmax) → (∀ x ∈ gmax, x ∈ g) →
    (∀ c ∈ rest, OrChildOk g c) →
    (∀ c ∈ rest, GrpDisjoint gmin c.gmin) →
    List.Pairwise (fun c d => GrpDisjoint c.gmin d.gmin) rest →
    bool_or_minmax_loop g gmin gmax rest =
      (rest.foldl (fun acc c => gmx_ana_index_merge acc c.gmin) gmin,
       rest.foldl (fun acc c => gmx_ana_index_union acc c.gmax) gmax) := by
  induction rest with
  | nil => intro gmin gmax _ _ _ _ _ _ _; rfl
  | cons c rest ih =>
      intro gmin gmax hsmin hsmax hsub hsubg hcs hd hp
      rw [List.pairwise_cons] at hp
      have hc := hcs c (by simp)
      by_cases hlt : gmin.length < g.length
      · rw [bool_or_minmax_loop, if_pos hlt, List.foldl_cons, List.foldl_cons]
        refine ih _ _ (isIndexGroup_merge hsmin hc.1 (hd c (by simp)))
          (isIndexGroup_union hsmax hc.2.1)
          (fun x hx => ?_) (fun x hx => ?_)
          (fun d hdm => hcs d (by simp [hdm])) (fun d hdm x hx => ?_) hp.2
        · rcases mem_index_merge.mp hx with h1 | h1
          · exact mem_index_union.mpr (Or.inl (hsub x h1))
          · exact mem_index_union.mpr (Or.inr (hc.2.2.1 x h1))
        · rcases mem_index_union.mp hx with h1 | h1
          · exact hsubg x h1
          · exact hc.2.2.2 x h1
        · rcases mem_index_merge.mp hx with h1 | h1
          · exact hd d (by simp [hdm]) x h1
          · exact hp.1 d hdm x h1
      · rw [bool_or_minmax_loop, if_neg hlt]
        have hsubg' : ∀ x ∈ gmin, x ∈ g := fun x hx => hsubg x (hsub x hx)
        have hsl := indexGroup_sublist hsmin hg hsubg'
        have hgeq : gmin = g := hsl.eq_of_length
          (by have := hsl.length_le; omega)
        have hminsubst : ∀ d ∈ c :: rest, ∀ x ∈ d.gmin, x ∈ gmin := by
          intro d hdm x hx
          rw [hgeq]
          have hdOk := hcs d hdm
          exact hdOk.2.2.2 x (hdOk.2.2.1 x hx)
        have hdisj : ∀ d ∈ c :: rest, GrpDisjoint gmin d.gmin := hd
        rw [foldl_merge_collapse (c :: rest) gmin hminsubst hdisj]
        have hmaxsub : ∀ d ∈ c :: rest, ∀ x ∈ d.gmax, x ∈ gmax := by
          intro d hdm x hx
          exact hsub _ (by rw [hgeq]; exact (hcs d hdm).2.2.2 x hx)
        rw [foldl_union_collapse (c :: rest) gmax hsmax
          (fun d hdm => (hcs d hdm).2.1) hmaxsub]

/-- **C2.** For a dynamic Boolean-AND element whose children carry bounds
with `gmin ⊆ gmax` (and whose folded static first child stores its value
group as both of its bounds), `evaluate_boolean_minmax_grps` computes
`gmin` as the intersection of all children's `gmin` sets and `gmax` as the
intersection of all children's `gmax` sets — the early exit of the loop
once `gmax` is empty does not change the result — and the static first
child's stored group, always a superset of the final `gmax`, ends up equal
to `gmax`, being rewritten exactly when it was a strict superset. -/
theorem and_minmax_spec (g : IndexGroup) (child1 : MinMaxChild)
    (rest : List MinMaxChild)
    (hsub1 : ∀ x ∈ child1.gmin, x ∈ child1.gmax)
    (hsubr : ∀ c ∈ rest, ∀ x ∈ c.gmin, x ∈ c.gmax)
    (hstatic : child1.cstatic = true)
    (hmax : child1.gmax = child1.vGrp)
    (hsort : IsIndexGroup child1.vGrp) :
    ∃ gmin gmax child1',
      evaluate_boolean_minmax_grps e_boolean_t.bool_and g child1 rest =
        Except.ok (gmin, gmax, child1') ∧
      gmin = rest.foldl
        (fun acc c => gmx_ana_index_intersection acc c.gmin) child1.gmin ∧
      gmax = rest.foldl
        (fun acc c => gmx_ana_index_intersection acc c.gmax) child1.gmax ∧
      (∀ x ∈ gmax, x ∈ child1.vGrp) ∧
      child1'.vGrp = gmax ∧
      (child1.vGrp = gmax → child1' = child1) := by
  have hloop := bool_and_minmax_loop_eq rest child1.gmin child1.gmax hsub1 hsubr
  have hfold :
      rest.foldl (fun acc c => gmx_ana_index_intersection acc c.gmax)
          child1.gmax =
        (rest.map MinMaxChild.gmax).foldl gmx_ana_index_intersection
          child1.gmax := by
    rw [List.foldl_map]
  have hgmaxSorted :
      IsIndexGroup (rest.foldl
        (fun acc c => gmx_ana_index_intersection acc c.gmax) child1.gmax) := by
    rw [hfold]
    exact foldl_intersection_sorted _ _ (hmax ▸ hsort)
  have hgmaxSub :
      ∀ x ∈ rest.foldl (fun acc c => gmx_ana_index_intersection acc c.gmax)
          child1.gmax, x ∈ child1.vGrp := by
    intro x hx
    rw [hfold] at hx
    exact hmax ▸ foldl_intersection_subset _ _ x hx
  by_cases hlen :
      child1.vGrp.length >
        (rest.foldl (fun acc c => gmx_ana_index_intersection acc c.gmax)
          child1.gmax).length
  · refine ⟨_, _,
      { child1 with
        vGrp := rest.foldl
          (fun acc c => gmx_ana_index_intersection acc c.gmax) child1.gmax
        cgrp := if child1.cgrp.length > 0 then
          rest.foldl (fun acc c => gmx_ana_index_intersection acc c.gmax)
            child1.gmax
          else child1.cgrp },
      ?_, rfl, rfl, hgmaxSub, rfl, ?_⟩
    · simp [evaluate_boolean_minmax_grps, hloop, hstatic, hlen]
    · intro hEq
      rw [hEq] at hlen
      omega
  · have heq : (rest.foldl
        (fun acc c => gmx_ana_index_intersection acc c.gmax)
          child1.gmax) = child1.vGrp :=
      (indexGroup_sublist hgmaxSorted hsort hgmaxSub).eq_of_length
        (by
          have := (indexGroup_sublist hgmaxSorted hsort hgmaxSub).length_le
          omega)
    refine ⟨_, _, child1, ?_, rfl, rfl, hgmaxSub, heq.symm, fun _ => rfl⟩
    simp [evaluate_boolean_minmax_grps, hloop, hlen]

/-- First child of the C2 witness instance: a static constant `{0,1,2}`. -/
def andWitnessChild1 : MinMaxChild :=
  { gmin := [0, 1, 2], gmax := [0, 1, 2], cstatic := true,
    vGrp := [0, 1, 2], cgrp := [0, 1, 2] }

/-- Remaining children of the C2 witness instance: one dynamic child
bounded by `([1], [1,2])`. -/
def andWitnessRest : List MinMaxChild :=
  [{ gmin := [1], gmax := [1, 2], cstatic := false, vGrp := [], cgrp := [] }]

/-- Witness for C2: an AND of a static constant `{0,1,2}` with a dynamic
child bounded by `([1], [1,2])`; the bounds come out as `([1], [1,2])` and
the constant is shrunk to `{1,2}`. -/
theorem and_minmax_spec_witness :
    ∃ gmin gmax child1',
      evaluate_boolean_minmax_grps e_boolean_t.bool_and [0, 1, 2, 3]
          andWitnessChild1 andWitnessRest =
        Except.ok (gmin, gmax, child1') ∧
      gmin = andWitnessRest.foldl
        (fun acc c => gmx_ana_index_intersection acc c.gmin)
        andWitnessChild1.gmin ∧
      gmax = andWitnessRest.foldl
        (fun acc c => gmx_ana_index_intersection acc c.gmax)
        andWitnessChild1.gmax ∧
      (∀ x ∈ gmax, x ∈ andWitnessChild1.vGrp) ∧
      child1'.vGrp = gmax ∧
      (andWitnessChild1.vGrp = gmax → child1' = andWitnessChild1) :=
  and_minmax_spec [0, 1, 2, 3] andWitnessChild1 andWitnessRest
    (by decide) (by decide) rfl rfl (by decide)

/-- **C3.** For a dynamic Boolean-OR element evaluated for group `g` whose
children's `gmin` sets are pairwise disjoint (and lie inside their `gmax`
sets, which lie inside `g` — the invariants of the analysis pass),
`evaluate_boolean_minmax_grps` computes `gmin` as the disjoint merge of all
children's `gmin` sets and `gmax` as the union of all children's `gmax`
sets — the early exit of the loop once `gmin` reaches the size of `g` does
not change the result — and the static first child's stored group, always
a subset of the final `gmin`, ends up equal to `gmin`, being rewritten
exactly when it was a strict subset. -/
theorem or_minmax_spec (g : IndexGroup) (child1 : MinMaxChild)
    (rest : List MinMaxChild)
    (hg : IsIndexGroup g)
    (hc1 : OrChildOk g child1)
    (hrest : ∀ c ∈ rest, OrChildOk g c)
    (hpair : List.Pairwise (fun c d => GrpDisjoint c.gmin d.gmin)
      (child1 :: rest))
    (hstatic : child1.cstatic = true)
    (hmin : child1.gmin = child1.vGrp) :
    ∃ gmin gmax child1',
      evaluate_boolean_minmax_grps e_boolean_t.bool_or g child1 rest =
        Except.ok (gmin, gmax, child1') ∧
      gmin = rest.foldl
        (fun acc c => gmx_ana_index_merge acc c.gmin) child1.gmin ∧
      gmax = rest.foldl
        (fun acc c => gmx_ana_index_union acc c.gmax) child1.gmax ∧
      (∀ x ∈ child1.vGrp, x ∈ gmin) ∧
      child1'.vGrp = gmin ∧
      (child1.vGrp = gmin → child1' = child1) := by
  rw [List.pairwise_cons] at hpair
  have hloop := bool_or_minmax_loop_eq hg rest child1.gmin child1.gmax
    hc1.1 hc1.2.1 hc1.2.2.1 hc1.2.2.2 hrest hpair.1 hpair.2
  have hgminSorted :
      IsIndexGroup (rest.foldl
        (fun acc c => gmx_ana_index_merge acc c.gmin) child1.gmin) :=
    foldl_merge_sorted rest child1.gmin hc1.1
      (fun c hc => (hrest c hc).1) hpair.1 hpair.2
  have hgminSup :
      ∀ x ∈ child1.vGrp,
        x ∈ rest.foldl (fun acc c => gmx_ana_index_merge acc c.gmin)
          child1.gmin :=
    fun x hx => foldl_merge_init_subset rest child1.gmin x (hmin ▸ hx)
  have hvSorted : IsIndexGroup child1.vGrp := hmin ▸ hc1.1
  by_cases hlen :
      child1.vGrp.length <
        (rest.foldl (fun acc c => gmx_ana_index_merge acc c.gmin)
          child1.gmin).length
  · refine ⟨_, _,
      { child1 with
        vGrp := rest.foldl
          (fun acc c => gmx_ana_index_merge acc c.gmin) child1.gmin
        cgrp := if child1.cgrp.length > 0 then
          rest.foldl (fun acc c => gmx_ana_index_merge acc c.gmin)
            child1.gmin
          else child1.cgrp },
      ?_, rfl, rfl, hgminSup, rfl, ?_⟩
    · simp [evaluate_boolean_minmax_grps, hloop, hstatic, hlen]
    · intro hEq
      rw [hEq] at hlen
      omega
  · have heq : child1.vGrp = (rest.foldl
        (fun acc c => gmx_ana_index_merge acc c.gmin) child1.gmin) :=
      (indexGroup_sublist hvSorted hgminSorted hgminSup).eq_of_length
        (by
          have := (indexGroup_sublist hvSorted hgminSorted hgminSup).length_le
          omega)
    refine ⟨_, _, child1, ?_, rfl, rfl, hgminSup, heq, fun _ => rfl⟩
    simp [evaluate_boolean_minmax_grps, hloop, hlen]

/-- First child of the C3 witness instance: a static constant `{0}`. -/
def orWitnessChild1 : MinMaxChild :=
  { gmin := [0], gmax := [0], cstatic := true, vGrp := [0], cgrp := [0] }

/-- Remaining children of the C3 witness instance: one dynamic child
bounded by `([2], [1, 2])`. -/
def orWitnessRest : List MinMaxChild :=
  [{ gmin := [2], gmax := [1, 2], cstatic := false, vGrp := [], cgrp := [] }]

/-- Witness for C3: an OR of a static constant `{0}` with a dynamic child
bounded by `([2], [1,2])` over `g = {0,1,2}`; `gmin` is the disjoint merge
`{0,2}`, `gmax` the union `{0,1,2}`, and the constant grows to `{0,2}`. -/
theorem or_minmax_spec_witness :
    ∃ gmin gmax child1',
      evaluate_boolean_minmax_grps e_boolean_t.bool_or [0, 1, 2]
          orWitnessChild1 orWitnessRest =
        Except.ok (gmin, gmax, child1') ∧
      gmin = orWitnessRest.foldl
        (fun acc c => gmx_ana_index_merge acc c.gmin) orWitnessChild1.gmin ∧
      gmax = orWitnessRest.foldl
        (fun acc c => gmx_ana_index_union acc c.gmax) orWitnessChild1.gmax ∧
      (∀ x ∈ orWitnessChild1.vGrp, x ∈ gmin) ∧
      child1'.vGrp = gmin ∧
      (orWitnessChild1.vGrp = gmin → child1' = orWitnessChild1) :=
  or_minmax_spec [0, 1, 2] orWitnessChild1 orWitnessRest
    (by decide) (by decide) (by decide) (by decide) rfl rfl

/-! ### The expression tree

`t_selelem` (selelem.h, used throughout compiler.cpp): element type,
boolean operation, value type, the scalar payloads relevant to the
normalizer, the flags the compiler passes read, the reference count of
subexpressions, the memory-pool assignment, and the evaluation-function
pointer.  Children are the `child`/`next` linked list, modelled as a
`List`. -/

/-- The element type `e_selelem_t`. -/
inductive e_selelem_t where
  | sel_const
  | sel_expression
  | sel_boolean
  | sel_arithmetic
  | sel_modifier
  | sel_root
  | sel_subexpr
  | sel_subexprref
  | sel_groupref
deriving Repr, DecidableEq

/-- The value type `e_selvalue_t`. -/
inductive e_selvalue_t where
  | no_value
  | int_value
  | real_value
  | str_value
  | pos_value
  | group_value
deriving Repr, DecidableEq

/-- The per-node payload of a `t_selelem` that the compiler passes touch:
`type`, `u.boolt`, `v.type`, the single scalar slots `v.u.i[0]`/`v.u.r[0]`
(reals as rationals), the `SEL_DYNAMIC`/`SEL_SINGLEVAL`/`SEL_INITFRAME`
flags, the method-table facts read by `init_item_evalfunc`
(whether a method is attached and whether it has an `init_frame` hook),
`refcount`, `mempool`, `evaluate` and `name`. -/
structure SelData where
  typ : e_selelem_t
  boolt : e_boolean_t
  vtype : e_selvalue_t
  ival : Int
  rval : Rat
  dynamic : Bool
  singleval : Bool
  initframe : Bool
  hasMethod : Bool
  methodInitFrame : Bool
  refcount : Nat
  mempool : Bool
  evaluate : SelEvalFn
  name : Option String
deriving Repr, DecidableEq

/-- A selection element: its payload and its chain of children. -/
inductive SelElem where
  | mk (d : SelData) (children : List SelElem)
deriving Repr

/-- The payload of an element. -/
def SelElem.data : SelElem → SelData
  | .mk d _ => d

/-- The children chain of an element. -/
def SelElem.children : SelElem → List SelElem
  | .mk _ l => l

theorem selElem_eta (e : SelElem) : SelElem.mk e.data e.children = e := by
  cases e
  rfl

mutual
def selElemDecEq : (a b : SelElem) → Decidable (a = b)
  | .mk d1 l1, .mk d2 l2 =>
    match decEq d1 d2 with
    | isFalse h => isFalse (by simp [h])
    | isTrue h1 =>
      match selElemListDecEq l1 l2 with
      | isFalse h => isFalse (by simp [h])
      | isTrue h2 => isTrue (by rw [h1, h2])

def selElemListDecEq : (a b : List SelElem) → Decidable (a = b)
  | [], [] => isTrue rfl
  | [], _ :: _ => isFalse (by simp)
  | _ :: _, [] => isFalse (by simp)
  | x :: xs, y :: ys =>
    match selElemDecEq x y with
    | isFalse h => isFalse (by simp [h])
    | isTrue h1 =>
      match selElemListDecEq xs ys with
      | isFalse h => isFalse (by simp [h])
      | isTrue h2 => isTrue (by rw [h1, h2])
end

instance : DecidableEq SelElem := selElemDecEq

/-! ### Boolean expression normalization (claims C4, C5) -/

/-- The double-negation rewrite inside the child loop of
`optimize_boolean_expressions` (compiler.cpp lines 855-876): a child that
is a `BOOL_NOT` whose own (first) child is again a `BOOL_NOT` is replaced
by the doubly negated expression, spliced up two levels.  (The source
dereferences `child->child->child`; a `NOT` without a child would be
undefined behaviour, so the rewrite fires only when both children
exist.) -/
def remove_double_negation (c : SelElem) : SelElem :=
  match c with
  | .mk d (inner :: _) =>
    if d.typ = e_selelem_t.sel_boolean ∧ d.boolt = e_boolean_t.bool_not then
      match inner with
      | .mk di (x :: _) =>
        if di.typ = e_selelem_t.sel_boolean ∧ di.boolt = e_boolean_t.bool_not
        then x else c
      | .mk _ [] => c
    else c
  | _ => c

/-- The flattening loop of `optimize_boolean_expressions` (lines 885-915):
a direct child that is a boolean with the same operation is replaced by
its operand chain, in place and in order; the spliced operands are not
re-examined. -/
def flatten_same_op (op : e_boolean_t) : List SelElem → List SelElem
  | [] => []
  | c :: cs =>
    if c.data.typ = e_selelem_t.sel_boolean ∧ c.data.boolt = op then
      c.children ++ flatten_same_op op cs
    else c :: flatten_same_op op cs

mutual
/-- Translation of `optimize_boolean_expressions` (compiler.cpp lines
842-916): recurse into the children (except under a `SEL_SUBEXPRREF`),
removing double negations at child positions after each recursive call,
then, for a non-`NOT` boolean element, splice children carrying the same
boolean operation into the element itself. -/
def optimize_boolean_expressions : SelElem → SelElem
  | .mk d children =>
    let l1 := if d.typ = e_selelem_t.sel_subexprref then children
              else optimize_boolean_list children
    if d.typ = e_selelem_t.sel_boolean ∧ d.boolt ≠ e_boolean_t.bool_not then
      .mk d (flatten_same_op d.boolt l1)
    else .mk d l1

/-- The child loop of `optimize_boolean_expressions`: optimize each child
recursively, then remove a double negation at that position. -/
def optimize_boolean_list : List SelElem → List SelElem
  | [] => []
  | c :: cs =>
    remove_double_negation (optimize_boolean_expressions c) ::
      optimize_boolean_list cs
end

/-- The reordering loop of `reorder_boolean_static_children` (compiler.cpp
lines 946-981), translated from its pointer manipulation: `stat` is the
chain up to and including `child` (the already-placed static elements),
`dynRun` the all-dynamic run between `child` and `prev`, and `rest` the
chain after `prev`.  The inner `while` advances `prev` over one dynamic
element at a time, extending the run; a static element found by the scan
is relinked to the end of `stat` (directly after `child`); when the chain
is exhausted it is reassembled as the static prefix followed by the
dynamic run. -/
def reorder_static_loop (stat dynRun : List SelElem) :
    List SelElem → List SelElem
  | [] => stat ++ dynRun
  | c :: rest =>
    if c.data.dynamic then reorder_static_loop stat (dynRun ++ [c]) rest
    else reorder_static_loop (stat ++ [c]) dynRun rest

mutual
/-- Translation of `reorder_boolean_static_children` (compiler.cpp lines
927-983): recurse into the children (except under a `SEL_SUBEXPRREF`),
then, for a dynamic boolean element, stably move the static children in
front of the dynamic ones. -/
def reorder_boolean_static_children : SelElem → SelElem
  | .mk d children =>
    let l1 := if d.typ = e_selelem_t.sel_subexprref then children
              else reorder_boolean_list children
    if d.typ = e_selelem_t.sel_boolean ∧ d.dynamic then
      .mk d (reorder_static_loop [] [] l1)
    else .mk d l1

def reorder_boolean_list : List SelElem → List SelElem
  | [] => []
  | c :: cs => reorder_boolean_static_children c :: reorder_boolean_list cs
end

/-! ### Arithmetic expression normalization (claims C4, C6) -/

/-- The conversion of an integer constant to a real constant inside
`optimize_arithmetic_expressions` (lines 1031-1035): `r[0] = v.u.i[0]`,
`v.type = REAL_VALUE`. -/
def int_const_to_real (c : SelElem) : SelElem :=
  .mk { c.data with
        vtype := e_selvalue_t.real_value
        rval := (c.data.ival : Rat) } c.children

/-- The child loop of `optimize_arithmetic_expressions` (lines 1020-1042):
an integer-valued constant child becomes a real constant; an integer-valued
non-constant child raises `InconsistentInputError`; a child of any other
non-real value type raises `InternalError`. -/
def arithmetic_convert_children :
    List SelElem → Except SelError (List SelElem)
  | [] => Except.ok []
  | c :: cs =>
    if c.data.vtype = e_selvalue_t.int_value then
      if c.data.typ ≠ e_selelem_t.sel_const then
        Except.error (SelError.inconsistentInput
          "Non-constant integer expressions not implemented in arithmetic evaluation")
      else
        match arithmetic_convert_children cs with
        | Except.error e => Except.error e
        | Except.ok cs' => Except.ok (int_const_to_real c :: cs')
    else if c.data.vtype ≠ e_selvalue_t.real_value then
      Except.error (SelError.internalError
        "Non-numerical value in arithmetic expression")
    else
      match arithmetic_convert_children cs with
      | Except.error e => Except.error e
      | Except.ok cs' => Except.ok (c :: cs')

mutual
/-- Translation of `optimize_arithmetic_expressions` (compiler.cpp lines
998-1043): recurse into the children (except under a `SEL_SUBEXPRREF`),
then, for an `SEL_ARITHMETIC` element, convert integer constants among the
direct children to reals, failing on per-frame integers or non-numeric
operands. -/
def optimize_arithmetic_expressions : SelElem → Except SelError SelElem
  | .mk d children =>
    match (if d.typ = e_selelem_t.sel_subexprref then Except.ok children
           else optimize_arithmetic_list children) with
    | Except.error e => Except.error e
    | Except.ok l1 =>
      if d.typ ≠ e_selelem_t.sel_arithmetic then Except.ok (.mk d l1)
      else
        match arithmetic_convert_children l1 with
        | Except.error e => Except.error e
        | Except.ok l2 => Except.ok (.mk d l2)

def optimize_arithmetic_list : List SelElem → Except SelError (List SelElem)
  | [] => Except.ok []
  | c :: cs =>
    match optimize_arithmetic_expressions c with
    | Except.error e => Except.error e
    | Except.ok c' =>
      match optimize_arithmetic_list cs with
      | Except.error e => Except.error e
      | Except.ok cs' => Except.ok (c' :: cs')
end

/-! ### Evaluation-function assignment (claim C7) -/

/-- The type switch of `init_item_evalfunc` (compiler.cpp lines 1074-1134)
applied to one element whose children have already been processed:
assigns the production evaluation function, sets `SEL_INITFRAME` on static
expressions whose method has an `init_frame` hook, copies the referenced
subexpression's name onto a `SEL_SUBEXPRREF`, and fails on `BOOL_XOR` and
`SEL_GROUPREF`. -/
def init_item_evalfunc_switch (d : SelData) (children : List SelElem) :
    Except SelError SelData :=
  match d.typ with
  | e_selelem_t.sel_const =>
      if d.vtype = e_selvalue_t.group_value then
        Except.ok { d with evaluate := SelEvalFn.evaluateStatic }
      else Except.ok d
  | e_selelem_t.sel_expression =>
      let d1 := if ¬ d.dynamic ∧ d.hasMethod ∧ d.methodInitFrame then
          { d with initframe := true }
        else d
      Except.ok { d1 with evaluate := SelEvalFn.evaluateMethod }
  | e_selelem_t.sel_arithmetic =>
      Except.ok { d with evaluate := SelEvalFn.evaluateArithmetic }
  | e_selelem_t.sel_modifier =>
      if d.vtype ≠ e_selvalue_t.no_value then
        Except.ok { d with evaluate := SelEvalFn.evaluateModifier }
      else Except.ok d
  | e_selelem_t.sel_boolean =>
      match d.boolt with
      | e_boolean_t.bool_not =>
          Except.ok { d with evaluate := SelEvalFn.evaluateNot }
      | e_boolean_t.bool_and =>
          Except.ok { d with evaluate := SelEvalFn.evaluateAnd }
      | e_boolean_t.bool_or =>
          Except.ok { d with evaluate := SelEvalFn.evaluateOr }
      | e_boolean_t.bool_xor =>
          Except.error (SelError.notImplemented
            "xor expressions not implemented")
  | e_selelem_t.sel_root =>
      Except.ok { d with evaluate := SelEvalFn.evaluateRoot }
  | e_selelem_t.sel_subexpr =>
      Except.ok { d with evaluate :=
        if d.refcount = 2 then SelEvalFn.evaluateSubexprSimple
        else SelEvalFn.evaluateSubexpr }
  | e_selelem_t.sel_subexprref =>
      match children with
      | c :: _ =>
          Except.ok { d with
            name := c.data.name
            evaluate :=
              if c.data.refcount = 2 then SelEvalFn.evaluateSubexprrefSimple
              else SelEvalFn.evaluateSubexprref }
      | [] => Except.ok d
  | e_selelem_t.sel_groupref =>
      Except.error (SelError.apiError
        "Unresolved group reference in compilation")

mutual
/-- Translation of `init_item_evalfunc` (compiler.cpp lines 1058-1135):
process the children first (except under a `SEL_SUBEXPRREF`), then assign
this element's evaluation function, throwing on `BOOL_XOR` and
`SEL_GROUPREF`. -/
def init_item_evalfunc : SelElem → Except SelError SelElem
  | .mk d children =>
    match (if d.typ = e_selelem_t.sel_subexprref then Except.ok children
           else init_item_evalfunc_list children) with
    | Except.error e => Except.error e
    | Except.ok l1 =>
      match init_item_evalfunc_switch d l1 with
      | Except.error e => Except.error e
      | Except.ok d' => Except.ok (.mk d' l1)

def init_item_evalfunc_list : List SelElem → Except SelError (List SelElem)
  | [] => Except.ok []
  | c :: cs =>
    match init_item_evalfunc c with
    | Except.error e => Except.error e
    | Except.ok c' =>
      match init_item_evalfunc_list cs with
      | Except.error e => Except.error e
      | Except.ok cs' => Except.ok (c' :: cs')
end

mutual
/-- Whether `init_item_evalfunc`'s traversal (children of everything except
a `SEL_SUBEXPRREF`) reaches a `BOOL_XOR` boolean element. -/
def reaches_xor : SelElem → Bool
  | .mk d children =>
    (d.typ = e_selelem_t.sel_boolean ∧ d.boolt = e_boolean_t.bool_xor) ∨
    (d.typ ≠ e_selelem_t.sel_subexprref ∧ reaches_xor_list children)

def reaches_xor_list : List SelElem → Bool
  | [] => false
  | c :: cs => reaches_xor c ∨ reaches_xor_list cs
end

mutual
/-- Whether `init_item_evalfunc`'s traversal reaches a `SEL_GROUPREF`. -/
def reaches_groupref : SelElem → Bool
  | .mk d children =>
    (d.typ = e_selelem_t.sel_groupref) ∨
    (d.typ ≠ e_selelem_t.sel_subexprref ∧ reaches_groupref_list children)

def reaches_groupref_list : List SelElem → Bool
  | [] => false
  | c :: cs => reaches_groupref c ∨ reaches_groupref_list cs
end

/-! ### Memory-pool assignment (claim C9) -/

/-- The condition of `setup_memory_pooling` (compiler.cpp lines 1153-1156)
under which a direct child of `d` is given pool-backed storage. -/
def mempool_condition (d : SelData) (c : SelElem) : Prop :=
  (d.typ = e_selelem_t.sel_boolean ∧ c.data.dynamic) ∨
  (d.typ = e_selelem_t.sel_arithmetic ∧ c.data.typ ≠ e_selelem_t.sel_const ∧
    ¬ c.data.singleval) ∨
  (d.typ = e_selelem_t.sel_subexpr ∧ d.refcount > 2)

instance (d : SelData) (c : SelElem) : Decidable (mempool_condition d c) := by
  unfold mempool_condition
  infer_instance

/-- The assignment block of `setup_memory_pooling` (lines 1157-1164):
gives the child pooled storage and, when the child is a `SEL_SUBEXPRREF`
to a subexpression with reference count 2, also gives the subexpression's
own child pooled storage (`child->child->child->mempool = mempool`). -/
def assign_mempool : SelElem → SelElem
  | .mk d children =>
    if d.typ = e_selelem_t.sel_subexprref then
      match children with
      | .mk ds (.mk bd bc :: bs) :: srest =>
          if ds.refcount = 2 then
            .mk { d with mempool := true }
              (.mk ds (.mk { bd with mempool := true } bc :: bs) :: srest)
          else .mk { d with mempool := true } children
      | _ => .mk { d with mempool := true } children
    else .mk { d with mempool := true } children

mutual
/-- The number of elements in a selection subtree. -/
def SelElem.nodeCount : SelElem → Nat
  | .mk _ children => 1 + nodeCountList children

def nodeCountList : List SelElem → Nat
  | [] => 0
  | c :: cs => SelElem.nodeCount c + nodeCountList cs
end

theorem nodeCount_pos (e : SelElem) : 0 < e.nodeCount := by
  cases e
  rw [SelElem.nodeCount]
  omega

theorem nodeCount_mk (d : SelData) (l : List SelElem) :
    (SelElem.mk d l).nodeCount = 1 + nodeCountList l := by
  rw [SelElem.nodeCount]

/-- `assign_mempool` only rewrites flags; the tree shape is unchanged. -/
theorem nodeCount_assign_mempool (c : SelElem) :
    (assign_mempool c).nodeCount = c.nodeCount := by
  rcases c with ⟨d, children⟩
  rw [assign_mempool.eq_def]
  by_cases htyp : d.typ = e_selelem_t.sel_subexprref
  · simp only [if_pos htyp]
    rcases children with _ | ⟨⟨ds, body⟩, srest⟩
    · rw [nodeCount_mk, nodeCount_mk]
    · rcases body with _ | ⟨⟨bd, bc⟩, bs⟩
      · rw [nodeCount_mk, nodeCount_mk]
      · by_cases hrc : ds.refcount = 2
        · simp only [if_pos hrc]
          simp only [nodeCount_mk, nodeCountList]
        · simp only [if_neg hrc]
          rw [nodeCount_mk, nodeCount_mk]
  · simp only [if_neg htyp]
    rw [nodeCount_mk, nodeCount_mk]

mutual
/-- Translation of `setup_memory_pooling` (compiler.cpp lines 1143-1169):
for every element except a `SEL_SUBEXPRREF`, walk the children; a child
satisfying the pooling condition is given pool-backed storage (possibly
together with the body of the simple subexpression it references), and
each child is processed recursively. -/
def setup_memory_pooling : SelElem → SelElem
  | .mk d children =>
    if d.typ = e_selelem_t.sel_subexprref then .mk d children
    else .mk d (setup_memory_pooling_list d children)
termination_by e => 2 * e.nodeCount
decreasing_by
  rw [nodeCount_mk]
  omega

def setup_memory_pooling_list (d : SelData) :
    List SelElem → List SelElem
  | [] => []
  | c :: cs =>
    setup_memory_pooling
        (if mempool_condition d c then assign_mempool c else c) ::
      setup_memory_pooling_list d cs
termination_by l => 2 * nodeCountList l + 1
decreasing_by
  · rw [nodeCountList]
    split
    · rw [nodeCount_assign_mempool]
      have := nodeCount_pos c
      omega
    · have := nodeCount_pos c
      omega
  · rw [nodeCountList]
    have := nodeCount_pos c
    omega
end

/-! ### Claim C5: static-first reordering -/

theorem reorder_data (e : SelElem) :
    (reorder_boolean_static_children e).data = e.data := by
  rcases e with ⟨d, children⟩
  rw [reorder_boolean_static_children]
  by_cases h : d.typ = e_selelem_t.sel_boolean ∧ d.dynamic = true
  · rw [if_pos h]
    rfl
  · rw [if_neg h]
    rfl

theorem reorder_list_map (l : List SelElem) :
    reorder_boolean_list l = l.map reorder_boolean_static_children := by
  induction l with
  | nil => rw [reorder_boolean_list, List.map_nil]
  | cons c cs ih => rw [reorder_boolean_list, List.map_cons, ih]

/-- Reordering a child does not change its `SEL_DYNAMIC` flag, so filtering
the processed children by the flag is filtering the original children. -/
theorem filter_map_reorder (q : SelData → Bool) (l : List SelElem) :
    (l.map reorder_boolean_static_children).filter (fun c => q c.data) =
      (l.filter (fun c => q c.data)).map reorder_boolean_static_children := by
  induction l with
  | nil => rfl
  | cons c cs ih =>
      rw [List.map_cons, List.filter_cons, List.filter_cons, reorder_data]
      by_cases h : q c.data
      · rw [if_pos h, if_pos h, List.map_cons, ih]
      · rw [if_neg h, if_neg h, ih]

/-- The translated pointer loop of `reorder_boolean_static_children`
computes the stable partition: statics (in order) first, then the
dynamics (in order). -/
theorem reorder_static_loop_eq (rest : List SelElem) :
    ∀ stat dynRun : List SelElem,
    reorder_static_loop stat dynRun rest =
      stat ++ rest.filter (fun c => ! c.data.dynamic) ++ dynRun ++
        rest.filter (fun c => c.data.dynamic) := by
  induction rest with
  | nil =>
      intro stat dynRun
      rw [reorder_static_loop]
      simp
  | cons c cs ih =>
      intro stat dynRun
      rw [reorder_static_loop]
      by_cases h : c.data.dynamic
      · rw [if_pos h, ih]
        simp [h]
      · rw [if_neg h, ih]
        simp [h]

/-- The characterization of `reorder_boolean_static_children` on one
element; shared helper behind claim C5. -/
theorem reorder_mk_eq (d : SelData)
    (children : List SelElem) :
    reorder_boolean_static_children (SelElem.mk d children) =
      SelElem.mk d
        (if d.typ = e_selelem_t.sel_subexprref then children
         else if d.typ = e_selelem_t.sel_boolean ∧ d.dynamic then
           (children.filter (fun c => ! c.data.dynamic)).map
             reorder_boolean_static_children ++
           (children.filter (fun c => c.data.dynamic)).map
             reorder_boolean_static_children
         else children.map reorder_boolean_static_children) := by
  rw [reorder_boolean_static_children]
  by_cases hsr : d.typ = e_selelem_t.sel_subexprref
  · have hb : ¬ (d.typ = e_selelem_t.sel_boolean ∧ d.dynamic = true) := by
      rw [hsr]
      rintro ⟨h, -⟩
      cases h
    rw [if_pos hsr, if_pos hsr, if_neg hb]
  · rw [if_neg hsr, if_neg hsr]
    by_cases hb : d.typ = e_selelem_t.sel_boolean ∧ d.dynamic = true
    · rw [if_pos hb, if_pos hb, reorder_static_loop_eq, reorder_list_map,
        filter_map_reorder (fun dd => ! dd.dynamic),
        filter_map_reorder (fun dd => dd.dynamic)]
      simp
    · rw [if_neg hb, if_neg hb, reorder_list_map]

/-- **C5.** `reorder_boolean_static_children` permutes the direct children
of a Boolean element carrying the dynamic flag into the stable partition
with every non-dynamic (static) child before every dynamic child,
preserving the relative order inside each class; children of a
`SEL_SUBEXPRREF` are untouched, and the children of every other element
keep their original order (each child being processed recursively). -/
theorem reorder_boolean_static_children_spec (d : SelData)
    (children : List SelElem) :
    reorder_boolean_static_children (SelElem.mk d children) =
      SelElem.mk d
        (if d.typ = e_selelem_t.sel_subexprref then children
         else if d.typ = e_selelem_t.sel_boolean ∧ d.dynamic then
           (children.filter (fun c => ! c.data.dynamic)).map
             reorder_boolean_static_children ++
           (children.filter (fun c => c.data.dynamic)).map
             reorder_boolean_static_children
         else children.map reorder_boolean_static_children) :=
  reorder_mk_eq d children

/-! ### Claim C6: arithmetic literal promotion and its errors -/

/-- A direct child that the arithmetic conversion loop accepts: integer
values only as constants, and no value type other than integer or real. -/
def arith_child_ok (c : SelElem) : Prop :=
  (c.data.vtype = e_selvalue_t.int_value → c.data.typ = e_selelem_t.sel_const) ∧
  (c.data.vtype = e_selvalue_t.int_value ∨ c.data.vtype = e_selvalue_t.real_value)

instance (c : SelElem) : Decidable (arith_child_ok c) := by
  unfold arith_child_ok
  infer_instance

/-- The successful per-child action of the conversion loop. -/
def arith_convert_one (c : SelElem) : SelElem :=
  if c.data.vtype = e_selvalue_t.int_value then int_const_to_real c else c

/-- **C6.** Inside an `SEL_ARITHMETIC` element, the conversion loop of
`optimize_arithmetic_expressions` turns every integer-valued constant
child into the equivalent real-valued constant (same element type, real
value equal to the integer) and leaves real children alone, so afterwards
every direct child is real-valued; an integer-valued non-constant child
makes it fail with the `InconsistentInputError` (the spec's
`UnsupportedExpression`), a child neither integer- nor real-valued with
the `InternalError`, the first offending child deciding; and for any
element that is not `SEL_ARITHMETIC` the pass only recurses — the direct
children are not converted (not touched at all under a
`SEL_SUBEXPRREF`). -/
theorem optimize_arithmetic_spec (d : SelData) (children : List SelElem) :
    ((∀ c ∈ children, arith_child_ok c) →
      arithmetic_convert_children children =
        Except.ok (children.map arith_convert_one) ∧
      (∀ c' ∈ children.map arith_convert_one,
        c'.data.vtype = e_selvalue_t.real_value) ∧
      (∀ c ∈ children, c.data.vtype = e_selvalue_t.int_value →
        (arith_convert_one c).data.typ = c.data.typ ∧
        (arith_convert_one c).data.rval = (c.data.ival : Rat))) ∧
    (∀ pre c post, children = pre ++ c :: post →
      (∀ p ∈ pre, arith_child_ok p) →
      c.data.vtype = e_selvalue_t.int_value →
      c.data.typ ≠ e_selelem_t.sel_const →
      arithmetic_convert_children children =
        Except.error (SelError.inconsistentInput
          "Non-constant integer expressions not implemented in arithmetic evaluation")) ∧
    (∀ pre c post, children = pre ++ c :: post →
      (∀ p ∈ pre, arith_child_ok p) →
      c.data.vtype ≠ e_selvalue_t.int_value →
      c.data.vtype ≠ e_selvalue_t.real_value →
      arithmetic_convert_children children =
        Except.error (SelError.internalError
          "Non-numerical value in arithmetic expression")) ∧
    (d.typ ≠ e_selelem_t.sel_arithmetic →
      optimize_arithmetic_expressions (SelElem.mk d children) =
        Except.map (SelElem.mk d)
          (if d.typ = e_selelem_t.sel_subexprref then Except.ok children
           else optimize_arithmetic_list children)) := by
  refine ⟨?_, ?_, ?_, ?_⟩
  · intro hok
    refine ⟨?_, ?_, ?_⟩
    · induction children with
      | nil => rfl
      | cons c cs ih =>
          have hc := hok c (by simp)
          rw [arithmetic_convert_children, List.map_cons]
          by_cases hint : c.data.vtype = e_selvalue_t.int_value
          · rw [if_pos hint]
            rw [if_neg (by simpa using hc.1 hint)]
            rw [ih (fun x hx => hok x (by simp [hx]))]
            rw [arith_convert_one, if_pos hint]
          · rw [if_neg hint]
            rcases hc.2 with h | h
            · exact absurd h hint
            · rw [if_neg (by simp [h])]
              rw [ih (fun x hx => hok x (by simp [hx]))]
              rw [arith_convert_one, if_neg hint]
    · intro c' hc'
      rcases List.mem_map.mp hc' with ⟨c, hc, rfl⟩
      have hok' := hok c hc
      rw [arith_convert_one]
      by_cases hint : c.data.vtype = e_selvalue_t.int_value
      · rw [if_pos hint]
        rfl
      · rw [if_neg hint]
        rcases hok'.2 with h | h
        · exact absurd h hint
        · exact h
    · intro c _ hint
      rw [arith_convert_one, if_pos hint]
      exact ⟨rfl, rfl⟩
  · intro pre c post hsplit hpre hint hnc
    subst hsplit
    induction pre with
    | nil =>
        rw [List.nil_append, arithmetic_convert_children, if_pos hint,
          if_pos hnc]
    | cons p ps ih =>
        have hp := hpre p (by simp)
        rw [List.cons_append, arithmetic_convert_children]
        by_cases hpint : p.data.vtype = e_selvalue_t.int_value
        · rw [if_pos hpint, if_neg (by simpa using hp.1 hpint),
            ih (fun x hx => hpre x (by simp [hx]))]
        · rw [if_neg hpint]
          rcases hp.2 with h | h
          · exact absurd h hpint
          · rw [if_neg (by simp [h]), ih (fun x hx => hpre x (by simp [hx]))]
  · intro pre c post hsplit hpre hni hnr
    subst hsplit
    induction pre with
    | nil =>
        rw [List.nil_append, arithmetic_convert_children, if_neg hni,
          if_pos hnr]
    | cons p ps ih =>
        have hp := hpre p (by simp)
        rw [List.cons_append, arithmetic_convert_children]
        by_cases hpint : p.data.vtype = e_selvalue_t.int_value
        · rw [if_pos hpint, if_neg (by simpa using hp.1 hpint),
            ih (fun x hx => hpre x (by simp [hx]))]
        · rw [if_neg hpint]
          rcases hp.2 with h | h
          · exact absurd h hpint
          · rw [if_neg (by simp [h]), ih (fun x hx => hpre x (by simp [hx]))]
  · intro hna
    rw [optimize_arithmetic_expressions]
    by_cases hsr : d.typ = e_selelem_t.sel_subexprref
    · rw [if_pos hsr]
      simp [hna, Except.map]
    · rw [if_neg hsr]
      cases h : optimize_arithmetic_list children with
      | error e => simp [hna, Except.map]
      | ok l1 => simp [hna, Except.map]

/-- A concrete arithmetic child list for the C6 witness: the integer
constant 1 and the real constant 5/2. -/
def arithWitnessChildren : List SelElem :=
  [SelElem.mk
    { typ := e_selelem_t.sel_const, boolt := e_boolean_t.bool_and,
      vtype := e_selvalue_t.int_value, ival := 1, rval := 0,
      dynamic := false, singleval := true, initframe := false,
      hasMethod := false, methodInitFrame := false, refcount := 0,
      mempool := false, evaluate := SelEvalFn.nullFn, name := none } [],
   SelElem.mk
    { typ := e_selelem_t.sel_const, boolt := e_boolean_t.bool_and,
      vtype := e_selvalue_t.real_value, ival := 0, rval := (5 : Rat) / 2,
      dynamic := false, singleval := true, initframe := false,
      hasMethod := false, methodInitFrame := false, refcount := 0,
      mempool := false, evaluate := SelEvalFn.nullFn, name := none } []]

/-- Witness for C6 at the `1 + 2.5` instance: conversion succeeds and
every resulting child is real-valued. -/
theorem optimize_arithmetic_spec_witness :
    arithmetic_convert_children arithWitnessChildren =
      Except.ok (arithWitnessChildren.map arith_convert_one) ∧
    ∀ c' ∈ arithWitnessChildren.map arith_convert_one,
      c'.data.vtype = e_selvalue_t.real_value := by
  have h := (optimize_arithmetic_spec
    (SelElem.mk
      { typ := e_selelem_t.sel_const, boolt := e_boolean_t.bool_and,
        vtype := e_selvalue_t.int_value, ival := 1, rval := 0,
        dynamic := false, singleval := true, initframe := false,
        hasMethod := false, methodInitFrame := false, refcount := 0,
        mempool := false, evaluate := SelEvalFn.nullFn, name := none } []).data
    arithWitnessChildren).1 (by decide)
  exact ⟨h.1, h.2.1⟩

/-! ### Claim C7: XOR is unsupported -/

/-- The message of the `BOOL_XOR` failure (thrown at compiler.cpp lines
1110-1111 and 1994-1995). -/
def xorError : SelError :=
  SelError.notImplemented "xor expressions not implemented"

/-- The only two throw sites of `init_item_evalfunc`'s type switch are the
`BOOL_XOR` case and the `SEL_GROUPREF` case. -/
theorem init_item_evalfunc_switch_error (d : SelData) (l : List SelElem)
    (err : SelError) (h : init_item_evalfunc_switch d l = Except.error err) :
    (err = xorError ∧ d.typ = e_selelem_t.sel_boolean) ∨
    (err = SelError.apiError "Unresolved group reference in compilation" ∧
      d.typ = e_selelem_t.sel_groupref) := by
  rw [init_item_evalfunc_switch.eq_def] at h
  cases htyp : d.typ <;> rw [htyp] at h
  · rw [apply_ite (f := fun x => x = Except.error err)] at h
    split at h <;> cases h
  · cases h
  · rcases hb : d.boolt <;> rw [hb] at h
    · cases h
    · cases h
    · cases h
    · left
      cases h
      exact ⟨rfl, rfl⟩
  · cases h
  · rw [apply_ite (f := fun x => x = Except.error err)] at h
    split at h <;> cases h
  · cases h
  · cases h
  · rcases l with _ | ⟨c, cs⟩ <;> cases h
  · right
    cases h
    exact ⟨rfl, rfl⟩

mutual
/-- If a `BOOL_XOR` element is reachable, `init_item_evalfunc` fails. -/
theorem reaches_xor_error : ∀ e : SelElem, reaches_xor e = true →
    ∃ err, init_item_evalfunc e = Except.error err
  | .mk d children => by
    intro hx
    rw [reaches_xor] at hx
    rw [init_item_evalfunc]
    rcases (by simpa using hx :
        (d.typ = e_selelem_t.sel_boolean ∧ d.boolt = e_boolean_t.bool_xor) ∨
        (¬ d.typ = e_selelem_t.sel_subexprref ∧
          reaches_xor_list children = true)) with ⟨hb, hxor⟩ | ⟨hns, hlist⟩
    · have hsr : ¬ d.typ = e_selelem_t.sel_subexprref := by
        rw [hb]
        intro hcon
        cases hcon
      rw [if_neg hsr]
      cases h : init_item_evalfunc_list children with
      | error e => exact ⟨e, rfl⟩
      | ok l1 =>
          refine ⟨xorError, ?_⟩
          show (match init_item_evalfunc_switch d l1 with
            | Except.error e => Except.error e
            | Except.ok d' => Except.ok (SelElem.mk d' l1)) =
              Except.error xorError
          rw [init_item_evalfunc_switch.eq_def, hb, hxor]
          rfl
    · rw [if_neg hns]
      obtain ⟨err, herr⟩ := reaches_xor_list_error children hlist
      rw [herr]
      exact ⟨err, rfl⟩

theorem reaches_xor_list_error : ∀ l : List SelElem,
    reaches_xor_list l = true →
    ∃ err, init_item_evalfunc_list l = Except.error err
  | [] => by
    intro hx
    rw [reaches_xor_list] at hx
    cases hx
  | c :: cs => by
    intro hx
    rw [reaches_xor_list] at hx
    rw [init_item_evalfunc_list]
    rcases (by simpa using hx :
        reaches_xor c = true ∨ reaches_xor_list cs = true) with h1 | h2
    · obtain ⟨err, herr⟩ := reaches_xor_error c h1
      rw [herr]
      exact ⟨err, rfl⟩
    · cases h : init_item_evalfunc c with
      | error e => exact ⟨e, rfl⟩
      | ok c' =>
          obtain ⟨err, herr⟩ := reaches_xor_list_error cs h2
          rw [herr]
          exact ⟨err, rfl⟩
end

mutual
/-- With no unresolved group reference in reach, the only error
`init_item_evalfunc` can produce is the XOR failure. -/
theorem no_groupref_error : ∀ (e : SelElem) (err : SelError),
    reaches_groupref e = false → init_item_evalfunc e = Except.error err →
    err = xorError
  | .mk d children => by
    intro err hg herr
    rw [reaches_groupref] at hg
    rw [init_item_evalfunc] at herr
    have hg' : ¬ d.typ = e_selelem_t.sel_groupref ∧
        (d.typ = e_selelem_t.sel_subexprref ∨
          reaches_groupref_list children = false) := by
      rcases (by simpa using hg) with ⟨h1, h2⟩
      refine ⟨h1, ?_⟩
      by_cases hsr : d.typ = e_selelem_t.sel_subexprref
      · exact Or.inl hsr
      · exact Or.inr (h2 hsr)
    by_cases hsr : d.typ = e_selelem_t.sel_subexprref
    · rw [if_pos hsr] at herr
      have herr2 : (match init_item_evalfunc_switch d children with
          | Except.error e => Except.error e
          | Except.ok d' => Except.ok (SelElem.mk d' children)) =
            Except.error err := herr
      cases hsw : init_item_evalfunc_switch d children with
      | error e =>
          rw [hsw] at herr2
          cases herr2
          rcases init_item_evalfunc_switch_error d children err hsw with
            ⟨he, -⟩ | ⟨-, hgr⟩
          · exact he
          · rw [hsr] at hgr
            cases hgr
      | ok d' =>
          rw [hsw] at herr2
          cases herr2
    · rw [if_neg hsr] at herr
      rcases hg'.2 with h | hglist
      · exact absurd h hsr
      · cases hl : init_item_evalfunc_list children with
        | error e =>
            rw [hl] at herr
            cases herr
            exact no_groupref_list_error children err hglist hl
        | ok l1 =>
            rw [hl] at herr
            have herr2 : (match init_item_evalfunc_switch d l1 with
                | Except.error e => Except.error e
                | Except.ok d' => Except.ok (SelElem.mk d' l1)) =
                  Except.error err := herr
            cases hsw : init_item_evalfunc_switch d l1 with
            | error e =>
                rw [hsw] at herr2
                cases herr2
                rcases init_item_evalfunc_switch_error d l1 err hsw with
                  ⟨he, -⟩ | ⟨-, hgr⟩
                · exact he
                · exact absurd hgr hg'.1
            | ok d' =>
                rw [hsw] at herr2
                cases herr2

theorem no_groupref_list_error : ∀ (l : List SelElem) (err : SelError),
    reaches_groupref_list l = false →
    init_item_evalfunc_list l = Except.error err →
    err = xorError
  | [] => by
    intro err _ herr
    rw [init_item_evalfunc_list] at herr
    cases herr
  | c :: cs => by
    intro err hg herr
    rw [reaches_groupref_list] at hg
    have hg' : reaches_groupref c = false ∧
        reaches_groupref_list cs = false := by
      constructor <;> [skip; skip] <;>
        · by_contra hcon
          simp only [Bool.not_eq_false] at hcon
          simp [hcon] at hg
    rw [init_item_evalfunc_list] at herr
    cases h : init_item_evalfunc c with
    | error e =>
        rw [h] at herr
        cases herr
        exact no_groupref_error c err hg'.1 h
    | ok c' =>
        rw [h] at herr
        cases hl : init_item_evalfunc_list cs with
        | error e =>
            rw [hl] at herr
            cases herr
            exact no_groupref_list_error cs err hg'.2 hl
        | ok cs' =>
            rw [hl] at herr
            cases herr
end

/-- **C7.** Any selection tree in which the evaluation-function assignment
pass reaches a `BOOL_XOR` element fails to compile: `init_item_evalfunc`
returns an error, and — since the only other throw site is an unresolved
group reference, which the parser guarantees never reaches the compiler —
that error is the `UnsupportedExpression` (`NotImplementedError`) XOR
failure; likewise `evaluate_boolean_minmax_grps` fails with the same error
whenever it is handed a XOR element during bounds analysis. -/
theorem xor_unsupported_spec :
    (∀ e : SelElem, reaches_xor e = true →
      (∃ err, init_item_evalfunc e = Except.error err) ∧
      (reaches_groupref e = false →
        init_item_evalfunc e = Except.error xorError)) ∧
    (∀ (g : IndexGroup) (child1 : MinMaxChild) (rest : List MinMaxChild),
      evaluate_boolean_minmax_grps e_boolean_t.bool_xor g child1 rest =
        Except.error xorError) := by
  constructor
  · intro e hx
    obtain ⟨err, herr⟩ := reaches_xor_error e hx
    refine ⟨⟨err, herr⟩, fun hg => ?_⟩
    rw [herr, no_groupref_error e err hg herr]
  · intro g child1 rest
    rfl

/-- A concrete tree for the C7 witness: `AND(XOR(constant))`. -/
def xorWitnessTree : SelElem :=
  SelElem.mk
    { typ := e_selelem_t.sel_boolean, boolt := e_boolean_t.bool_and,
      vtype := e_selvalue_t.group_value, ival := 0, rval := 0,
      dynamic := false, singleval := false, initframe := false,
      hasMethod := false, methodInitFrame := false, refcount := 0,
      mempool := false, evaluate := SelEvalFn.nullFn, name := none }
    [SelElem.mk
      { typ := e_selelem_t.sel_boolean, boolt := e_boolean_t.bool_xor,
        vtype := e_selvalue_t.group_value, ival := 0, rval := 0,
        dynamic := false, singleval := false, initframe := false,
        hasMethod := false, methodInitFrame := false, refcount := 0,
        mempool := false, evaluate := SelEvalFn.nullFn, name := none } []]

/-- Witness for C7: assigning evaluation functions over `AND(XOR(...))`
fails with the XOR error. -/
theorem xor_unsupported_spec_witness :
    init_item_evalfunc xorWitnessTree = Except.error xorError :=
  ((xor_unsupported_spec.1 xorWitnessTree (by decide)).2 (by decide))

/-! ### Claim C9: memory-pool assignment -/

theorem setup_memory_pooling_list_map (d : SelData) (l : List SelElem) :
    setup_memory_pooling_list d l = l.map (fun c =>
      setup_memory_pooling
        (if mempool_condition d c then assign_mempool c else c)) := by
  induction l with
  | nil => rw [setup_memory_pooling_list, List.map_nil]
  | cons c cs ih => rw [setup_memory_pooling_list, List.map_cons, ih]

/-- The recursive walk itself never changes a node's payload; flags change
only through `assign_mempool` at the edges that satisfy the condition. -/
theorem setup_memory_pooling_data (e : SelElem) :
    (setup_memory_pooling e).data = e.data := by
  rcases e with ⟨d, children⟩
  rw [setup_memory_pooling]
  by_cases h : d.typ = e_selelem_t.sel_subexprref
  · rw [if_pos h]
  · rw [if_neg h]
    rfl

/-- The walk does not descend below a `SEL_SUBEXPRREF`. -/
theorem setup_memory_pooling_subexprref (e : SelElem)
    (h : e.data.typ = e_selelem_t.sel_subexprref) :
    setup_memory_pooling e = e := by
  rcases e with ⟨d, children⟩
  rw [setup_memory_pooling, if_pos (by exact h)]

/-- `assign_mempool` marks exactly the child's own storage as pooled at
the root of the child... -/
theorem assign_mempool_data (c : SelElem) :
    (assign_mempool c).data = { c.data with mempool := true } := by
  rcases c with ⟨d, children⟩
  rw [assign_mempool.eq_def]
  by_cases htyp : d.typ = e_selelem_t.sel_subexprref
  · simp only [if_pos htyp]
    rcases children with _ | ⟨⟨ds, body⟩, srest⟩
    · rfl
    · rcases body with _ | ⟨⟨bd, bc⟩, bs⟩
      · rfl
      · by_cases hrc : ds.refcount = 2
        · simp only [if_pos hrc]
          rfl
        · simp only [if_neg hrc]
          rfl
  · simp only [if_neg htyp]
    rfl

/-- **C9 (amended).** A direct child's own storage is given to the memory
pool exactly when the source condition holds (dynamic operand of a
Boolean, non-constant non-single-valued operand of an Arithmetic, body of
a Subexpr referenced more than twice); in addition — the case the claim
misses — when the pooled child is a `SEL_SUBEXPRREF` whose subexpression
has reference count 2, `assign_mempool` also gives that subexpression's
body pooled storage.  The walk itself never flips a pool flag (it only
recurses and applies `assign_mempool` at qualifying edges), and it never
descends below a `SEL_SUBEXPRREF`. -/
theorem setup_memory_pooling_amended (d : SelData) (children : List SelElem) :
    (d.typ ≠ e_selelem_t.sel_subexprref →
      setup_memory_pooling (SelElem.mk d children) =
        SelElem.mk d (children.map (fun c =>
          setup_memory_pooling
            (if mempool_condition d c then assign_mempool c else c)))) ∧
    (∀ c : SelElem, (setup_memory_pooling c).data = c.data) ∧
    (∀ c : SelElem, c.data.typ = e_selelem_t.sel_subexprref →
      setup_memory_pooling c = c) ∧
    (∀ c : SelElem, (assign_mempool c).data =
      { c.data with mempool := true }) ∧
    (∀ (cd sd bd : SelData) (bc bs srest : List SelElem),
      cd.typ = e_selelem_t.sel_subexprref → sd.refcount = 2 →
      assign_mempool
          (SelElem.mk cd (SelElem.mk sd (SelElem.mk bd bc :: bs) :: srest)) =
        SelElem.mk { cd with mempool := true }
          (SelElem.mk sd
            (SelElem.mk { bd with mempool := true } bc :: bs) :: srest)) := by
  refine ⟨fun hd => ?_, setup_memory_pooling_data,
    setup_memory_pooling_subexprref, assign_mempool_data,
    fun cd sd bd bc bs srest hcd hsd => ?_⟩
  · rw [setup_memory_pooling, if_neg hd, setup_memory_pooling_list_map]
  · rw [assign_mempool.eq_def]
    simp only [if_pos hcd, if_pos hsd]

/-- Shared payload template for the C9 counterexample nodes. -/
def cxData : SelData :=
  { typ := e_selelem_t.sel_expression, boolt := e_boolean_t.bool_and,
    vtype := e_selvalue_t.group_value, ival := 0, rval := 0,
    dynamic := true, singleval := false, initframe := false,
    hasMethod := false, methodInitFrame := false, refcount := 0,
    mempool := false, evaluate := SelEvalFn.nullFn, name := none }

/-- The body of the shared subexpression (a dynamic method expression). -/
def cxBody : SelElem := SelElem.mk cxData []

/-- A subexpression with reference count 2 (one real reference). -/
def cxSub : SelElem :=
  SelElem.mk { cxData with typ := e_selelem_t.sel_subexpr, refcount := 2 }
    [cxBody]

/-- A dynamic reference to the subexpression. -/
def cxRef : SelElem :=
  SelElem.mk { cxData with typ := e_selelem_t.sel_subexprref } [cxSub]

/-- A dynamic boolean AND whose only operand is the reference. -/
def cxTop : SelElem :=
  SelElem.mk { cxData with typ := e_selelem_t.sel_boolean } [cxRef]

/-- **C9 (counterexample).** Running `setup_memory_pooling` on
`AND(SubexprRef(Subexpr#2(body)))` pools the subexpression body, whose
parent is the `SEL_SUBEXPR` with reference count 2 — an edge satisfying
none of the three cases of the claim — so the claim's \"no element
outside these cases is given pooled storage\" is false. -/
theorem setup_memory_pooling_counterexample :
    setup_memory_pooling cxTop =
      SelElem.mk { cxData with typ := e_selelem_t.sel_boolean }
        [SelElem.mk
          { cxData with typ := e_selelem_t.sel_subexprref, mempool := true }
          [SelElem.mk
            { cxData with typ := e_selelem_t.sel_subexpr, refcount := 2 }
            [SelElem.mk { cxData with mempool := true } []]]] ∧
    ¬ mempool_condition
      { cxData with typ := e_selelem_t.sel_subexpr, refcount := 2 }
      (SelElem.mk { cxData with mempool := true } []) ∧
    ¬ mempool_condition
      { cxData with typ := e_selelem_t.sel_subexpr, refcount := 2 } cxBody := by
  refine ⟨?_, by decide, by decide⟩
  simp [setup_memory_pooling, setup_memory_pooling_list, assign_mempool,
    mempool_condition, cxTop, cxRef, cxSub, cxBody, SelElem.data, cxData]

/-! ### Claim C8: removal of unused subexpressions

`remove_unused_subexpressions` (compiler.cpp lines 640-675) works on the
chain of `SEL_ROOT` elements.  What the loop reads from each root is
whether its child is a `SEL_SUBEXPR` and that child's reference count;
freeing a root (`_gmx_selelem_free`, which lives in `selelem.cpp`, not in
this tree) decrements the reference count of every subexpression
referenced from inside the freed subtree — that part is modelled from the
spec (§4.2). -/

/-- The slice of a root element that the pruning pass reads: the identity
of its child subexpression (if the child is a `SEL_SUBEXPR`) and the
identities of all subexpressions referenced inside its subtree, whose
reference counts drop when the root is freed. -/
structure RootItem where
  subexprId : Option Nat
  refs : List Nat
deriving Repr, DecidableEq

/-- Modelled from the spec: freeing an element chain decrements the
reference count of each subexpression it references, once per
reference. -/
def decRefs (rc : Nat → Nat) : List Nat → (Nat → Nat)
  | [] => rc
  | i :: is => decRefs (fun n => if n = i then rc n - 1 else rc n) is

/-- The pruning condition of lines 652 and 663:
`item->child->type == SEL_SUBEXPR && item->child->refcount == 1`. -/
def isDeadSubexpr (rc : Nat → Nat) (item : RootItem) : Bool :=
  match item.subexprId with
  | some i => rc i == 1
  | none => false

/-- The pointer loop of `reverse_selelem_chain` (compiler.cpp lines
612-629). -/
def reverse_chain_loop (prev : List RootItem) :
    List RootItem → List RootItem
  | [] => prev
  | x :: xs => reverse_chain_loop (x :: prev) xs

/-- Translation of `reverse_selelem_chain`. -/
def reverse_selelem_chain (root : List RootItem) : List RootItem :=
  reverse_chain_loop [] root

theorem reverse_chain_loop_eq (l : List RootItem) :
    ∀ prev, reverse_chain_loop prev l = l.reverse ++ prev := by
  induction l with
  | nil => intro prev; rw [reverse_chain_loop]; simp
  | cons x xs ih =>
      intro prev
      rw [reverse_chain_loop, ih]
      simp

theorem reverse_selelem_chain_eq (root : List RootItem) :
    reverse_selelem_chain root = root.reverse := by
  rw [reverse_selelem_chain, reverse_chain_loop_eq]
  simp

/-- The leading `while` loop of `remove_unused_subexpressions` (lines
652-657): free dead roots at the head of the (already reversed) chain. -/
def ruse_drop_loop (rc : Nat → Nat) :
    List RootItem → List RootItem × (Nat → Nat)
  | [] => ([], rc)
  | x :: xs =>
    if isDeadSubexpr rc x then ruse_drop_loop (decRefs rc x.refs) xs
    else (x :: xs, rc)

/-- The second loop of `remove_unused_subexpressions` (lines 658-673):
walk the rest of the chain, unlinking and freeing every dead root,
threading the reference-count changes left to right. -/
def ruse_filter_loop (rc : Nat → Nat) :
    List RootItem → List RootItem × (Nat → Nat)
  | [] => ([], rc)
  | x :: xs =>
    if isDeadSubexpr rc x then ruse_filter_loop (decRefs rc x.refs) xs
    else
      let r := ruse_filter_loop rc xs
      (x :: r.1, r.2)

/-- Translation of `remove_unused_subexpressions` (compiler.cpp lines
640-675): reverse the chain, drop dead roots at the front, filter the
rest, and reverse back. -/
def remove_unused_subexpressions (rc : Nat → Nat) (root : List RootItem) :
    List RootItem × (Nat → Nat) :=
  match root with
  | [] => ([], rc)
  | x :: xs =>
    match ruse_drop_loop rc (reverse_selelem_chain (x :: xs)) with
    | ([], rc1) => ([], rc1)
    | (keep :: rest, rc1) =>
      match ruse_filter_loop rc1 rest with
      | (l2, rc2) => (reverse_selelem_chain (keep :: l2), rc2)

/-- The reference pruning semantics, written over the chain in its
original (insertion) order: later roots are decided first, and a root is
removed exactly when, at its turn, its child is a subexpression whose
reference count (after all removals of later roots) is 1. -/
def prune_reverse_order (rc : Nat → Nat) :
    List RootItem → List RootItem × (Nat → Nat)
  | [] => ([], rc)
  | x :: xs =>
    let r := prune_reverse_order rc xs
    if isDeadSubexpr r.2 x then (r.1, decRefs r.2 x.refs)
    else (x :: r.1, r.2)

theorem ruse_filter_eq_drop_filter (rc : Nat → Nat) (l : List RootItem) :
    ruse_filter_loop rc l =
      (match (ruse_drop_loop rc l).1 with
       | [] => ([], (ruse_drop_loop rc l).2)
       | keep :: rest =>
         let r2 := ruse_filter_loop (ruse_drop_loop rc l).2 rest
         (keep :: r2.1, r2.2)) := by
  induction l generalizing rc with
  | nil => rfl
  | cons x xs ih =>
      by_cases h : isDeadSubexpr rc x
      · rw [ruse_filter_loop, if_pos h, ih]
        rw [show ruse_drop_loop rc (x :: xs) =
          ruse_drop_loop (decRefs rc x.refs) xs by
            rw [ruse_drop_loop, if_pos h]]
      · rw [ruse_filter_loop, if_neg h]
        rw [show ruse_drop_loop rc (x :: xs) = (x :: xs, rc) by
          rw [ruse_drop_loop, if_neg h]]

theorem ruse_filter_append (a b : List RootItem) :
    ∀ rc, ruse_filter_loop rc (a ++ b) =
      ((ruse_filter_loop rc a).1 ++
        (ruse_filter_loop (ruse_filter_loop rc a).2 b).1,
       (ruse_filter_loop (ruse_filter_loop rc a).2 b).2) := by
  induction a with
  | nil =>
      intro rc
      rw [show ruse_filter_loop rc [] = ([], rc) from rfl]
      simp
  | cons x xs ih =>
      intro rc
      rw [List.cons_append]
      by_cases h : isDeadSubexpr rc x
      · rw [ruse_filter_loop, if_pos h, ih,
          show ruse_filter_loop rc (x :: xs) =
            ruse_filter_loop (decRefs rc x.refs) xs by
              rw [ruse_filter_loop, if_pos h]]
      · rw [ruse_filter_loop, if_neg h, ih,
          show ruse_filter_loop rc (x :: xs) =
            ((x :: (ruse_filter_loop rc xs).1),
              (ruse_filter_loop rc xs).2) by
              rw [ruse_filter_loop, if_neg h]]
        rw [List.cons_append]

theorem ruse_filter_reverse (l : List RootItem) :
    ∀ rc, ruse_filter_loop rc l.reverse =
      ((prune_reverse_order rc l).1.reverse,
       (prune_reverse_order rc l).2) := by
  induction l with
  | nil => intro rc; rfl
  | cons x xs ih =>
      intro rc
      rw [List.reverse_cons, ruse_filter_append, ih, prune_reverse_order]
      by_cases h : isDeadSubexpr (prune_reverse_order rc xs).2 x
      · rw [show ruse_filter_loop (prune_reverse_order rc xs).2 [x] =
          ([], decRefs (prune_reverse_order rc xs).2 x.refs) by
            rw [ruse_filter_loop, if_pos h, ruse_filter_loop]]
        simp [h]
      · rw [show ruse_filter_loop (prune_reverse_order rc xs).2 [x] =
          ([x], (prune_reverse_order rc xs).2) by
            rw [ruse_filter_loop, if_neg h, ruse_filter_loop]]
        simp [h]

theorem prune_reverse_order_sublist (rc : Nat → Nat) (l : List RootItem) :
    (prune_reverse_order rc l).1.Sublist l := by
  induction l generalizing rc with
  | nil => exact List.Sublist.refl _
  | cons x xs ih =>
      rw [prune_reverse_order]
      by_cases h : isDeadSubexpr (prune_reverse_order rc xs).2 x
      · simp only [if_pos h]
        exact List.Sublist.cons x (ih rc)
      · simp only [if_neg h]
        exact List.Sublist.cons₂ x (ih rc)

theorem remove_unused_as_filter (rc : Nat → Nat) (x : RootItem)
    (xs : List RootItem) :
    remove_unused_subexpressions rc (x :: xs) =
      ((ruse_filter_loop rc (x :: xs).reverse).1.reverse,
       (ruse_filter_loop rc (x :: xs).reverse).2) := by
  rw [remove_unused_subexpressions, reverse_selelem_chain_eq,
    ruse_filter_eq_drop_filter]
  rcases hd : ruse_drop_loop rc (x :: xs).reverse with ⟨r1, rc1⟩
  cases r1 with
  | nil => rfl
  | cons keep rest =>
      rcases hf : ruse_filter_loop rc1 rest with ⟨l2, rc2⟩
      simp [hf, reverse_selelem_chain_eq]

/-- **C8.** `remove_unused_subexpressions` computes exactly the
reverse-insertion-order pruning: scanning the chain from the last root to
the first, a root is removed precisely when its child is a `SEL_SUBEXPR`
whose reference count — after the decrements caused by freeing every
already-removed later root — equals 1, so a subexpression that loses its
last reference to a later pruned subexpression in the same pass is pruned
too; the surviving roots keep their relative order (the result is a
sublist of the chain).  The concrete instance shows the cascade: `SubExpr
0` starts with reference count 2 and is still removed, because pruning
`SubExpr 1` (its only referrer besides its own root) drops the count to
1. -/
theorem remove_unused_subexpressions_spec :
    (∀ (rc : Nat → Nat) (root : List RootItem),
      remove_unused_subexpressions rc root = prune_reverse_order rc root ∧
      (remove_unused_subexpressions rc root).1.Sublist root) ∧
    ((fun n => if n = 0 then 2 else if n = 1 then 1 else 0) 0 = 2 ∧
      (remove_unused_subexpressions
        (fun n => if n = 0 then 2 else if n = 1 then 1 else 0)
        [{ subexprId := some 0, refs := [] },
         { subexprId := some 1, refs := [0] },
         { subexprId := none, refs := [] }]).1 =
      [{ subexprId := none, refs := [] }]) := by
  constructor
  · intro rc root
    have heq : remove_unused_subexpressions rc root =
        prune_reverse_order rc root := by
      cases root with
      | nil => rfl
      | cons x xs =>
          rw [remove_unused_as_filter, ruse_filter_reverse]
          simp
    refine ⟨heq, ?_⟩
    rw [heq]
    exact prune_reverse_order_sublist _ _
  · exact ⟨rfl, by decide⟩

/-! ### Claim C4: idempotence of the normalization passes

The three rewrites run per root item at compiler.cpp lines 2653-2655:
`optimize_boolean_expressions`, `reorder_boolean_static_children`,
`optimize_arithmetic_expressions`.  We characterize the normal forms each
pass establishes and show every pass preserves the others' normal forms,
so a second run of the sequence is the identity. -/

/-- The normalization sequence applied to one root item (compiler.cpp
lines 2653-2655). -/
def compiler_normalization (e : SelElem) : Except SelError SelElem :=
  optimize_arithmetic_expressions
    (reorder_boolean_static_children (optimize_boolean_expressions e))

/-- The pattern that `remove_double_negation` rewrites: a `BOOL_NOT`
boolean whose first child is a `BOOL_NOT` boolean with at least one
child. -/
def is_removable_dneg : SelElem → Bool
  | .mk d (.mk di (_ :: _) :: _) =>
      decide (d.typ = e_selelem_t.sel_boolean ∧
              d.boolt = e_boolean_t.bool_not) &&
      decide (di.typ = e_selelem_t.sel_boolean ∧
              di.boolt = e_boolean_t.bool_not)
  | _ => false

/-- A child that would be spliced by `flatten_same_op op`. -/
def is_same_op (op : e_boolean_t) (c : SelElem) : Bool :=
  decide (c.data.typ = e_selelem_t.sel_boolean ∧ c.data.boolt = op)

mutual
/-- The normal form established by `optimize_boolean_expressions`: along
its traversal (not descending below a `SEL_SUBEXPRREF`) no child position
holds a removable double negation, and no non-`NOT` boolean has a direct
child with the same operation. -/
def boolNormed : SelElem → Bool
  | .mk d children =>
    (decide (d.typ = e_selelem_t.sel_subexprref) ||
      (boolNormedList children &&
        children.all (fun c => ! is_removable_dneg c))) &&
    (! (decide (d.typ = e_selelem_t.sel_boolean) &&
          ! decide (d.boolt = e_boolean_t.bool_not)) ||
      children.all (fun c => ! is_same_op d.boolt c))

def boolNormedList : List SelElem → Bool
  | [] => true
  | c :: cs => boolNormed c && boolNormedList cs
end

/-- A child chain whose static (non-dynamic) members all precede its
dynamic members. -/
def staticsFirst : List SelElem → Bool
  | [] => true
  | c :: cs =>
    if c.data.dynamic then cs.all (fun x => x.data.dynamic) else staticsFirst cs

mutual
/-- The normal form established by `reorder_boolean_static_children`:
along the traversal, the children of every dynamic boolean are already
partitioned static-first. -/
def reorderNormed : SelElem → Bool
  | .mk d children =>
    (decide (d.typ = e_selelem_t.sel_subexprref) ||
      reorderNormedList children) &&
    (! (decide (d.typ = e_selelem_t.sel_boolean) && d.dynamic) ||
      staticsFirst children)

def reorderNormedList : List SelElem → Bool
  | [] => true
  | c :: cs => reorderNormed c && reorderNormedList cs
end

mutual
/-- The normal form established by `optimize_arithmetic_expressions`:
along the traversal, every direct child of an arithmetic element is
real-valued. -/
def arithNormed : SelElem → Bool
  | .mk d children =>
    (decide (d.typ = e_selelem_t.sel_subexprref) ||
      arithNormedList children) &&
    (! decide (d.typ = e_selelem_t.sel_arithmetic) ||
      children.all (fun c => decide (c.data.vtype = e_selvalue_t.real_value)))

def arithNormedList : List SelElem → Bool
  | [] => true
  | c :: cs => arithNormed c && arithNormedList cs
end

mutual
/-- Well-formedness used by the idempotence proof: every `BOOL_NOT`
boolean element has exactly one child (spec §3: `Not` is unary). -/
def notUnary : SelElem → Bool
  | .mk d children =>
    (! (decide (d.typ = e_selelem_t.sel_boolean) &&
          decide (d.boolt = e_boolean_t.bool_not)) ||
      decide (children.length = 1)) &&
    notUnaryList children

def notUnaryList : List SelElem → Bool
  | [] => true
  | c :: cs => notUnary c && notUnaryList cs
end

mutual
/-- Two elements with the same skeleton: equal element types, boolean
operations and dynamic flags, pointwise in the whole tree.  The
arithmetic pass only rewrites values, so it relates its input and output
by `shapeEq`. -/
def shapeEq : SelElem → SelElem → Bool
  | .mk d l, .mk d' l' =>
    decide (d.typ = d'.typ) && decide (d.boolt = d'.boolt) &&
      decide (d.dynamic = d'.dynamic) && shapeEqList l l'

def shapeEqList : List SelElem → List SelElem → Bool
  | [], [] => true
  | [], _ :: _ => false
  | _ :: _, [] => false
  | x :: xs, y :: ys => shapeEq x y && shapeEqList xs ys
end

theorem optimize_boolean_list_map (l : List SelElem) :
    optimize_boolean_list l =
      l.map (fun c => remove_double_negation (optimize_boolean_expressions c)) := by
  induction l with
  | nil => rfl
  | cons c cs ih => rw [optimize_boolean_list, List.map_cons, ih]

theorem remove_double_negation_of_not_removable (c : SelElem)
    (h : is_removable_dneg c = false) : remove_double_negation c = c := by
  rcases c with ⟨d, children⟩
  rw [remove_double_negation.eq_def]
  rcases children with _ | ⟨⟨di, ichildren⟩, rest⟩
  · rfl
  · by_cases hout : d.typ = e_selelem_t.sel_boolean ∧
        d.boolt = e_boolean_t.bool_not
    · simp only [if_pos hout]
      rcases ichildren with _ | ⟨x, xs⟩
      · rfl
      · by_cases hin : di.typ = e_selelem_t.sel_boolean ∧
            di.boolt = e_boolean_t.bool_not
        · exfalso
          rw [is_removable_dneg] at h
          simp [hout, hin] at h
        · simp only [if_neg hin]
    · simp only [if_neg hout]

theorem boolNormedList_all (l : List SelElem) :
    boolNormedList l = l.all boolNormed := by
  induction l with
  | nil => rfl
  | cons c cs ih => rw [boolNormedList, List.all_cons, ih]

theorem boolNormedList_append (a b : List SelElem) :
    boolNormedList (a ++ b) = (boolNormedList a && boolNormedList b) := by
  rw [boolNormedList_all, boolNormedList_all, boolNormedList_all,
    List.all_append]

theorem boolNormed_mk_boolean {d : SelData} {children : List SelElem}
    (hb : d.typ = e_selelem_t.sel_boolean)
    (h : boolNormed (SelElem.mk d children) = true) :
    boolNormedList children = true ∧
    (∀ c ∈ children, is_removable_dneg c = false) ∧
    (d.boolt ≠ e_boolean_t.bool_not →
      ∀ c ∈ children, is_same_op d.boolt c = false) := by
  rw [boolNormed] at h
  rw [Bool.and_eq_true, Bool.or_eq_true, Bool.or_eq_true] at h
  have hns : ¬ d.typ = e_selelem_t.sel_subexprref := by
    rw [hb]
    intro hcon
    cases hcon
  rcases h with ⟨h1 | h1, h2⟩
  · exfalso
    have h1' : d.typ = e_selelem_t.sel_subexprref := by simpa using h1
    rw [hb] at h1'
    cases h1'
  · rw [Bool.and_eq_true] at h1
    refine ⟨h1.1, fun c hc => ?_, fun hnn c hc => ?_⟩
    · have := List.all_eq_true.mp h1.2 c hc
      simpa using this
    · rcases h2 with h2 | h2
      · exfalso
        simp [hb, hnn] at h2
      · have := List.all_eq_true.mp h2 c hc
        simpa using this

/-- The double-negation rewrite keeps the boolean normal form of an
already-normalized element, and its result is never itself a removable
double negation. -/
theorem remove_double_negation_props (e : SelElem)
    (h : boolNormed e = true) :
    boolNormed (remove_double_negation e) = true ∧
    is_removable_dneg (remove_double_negation e) = false := by
  by_cases hrem : is_removable_dneg e = true
  · rcases e with ⟨d, children⟩
    rcases children with _ | ⟨⟨di, ichildren⟩, rest⟩
    · simp [is_removable_dneg] at hrem
    · rcases ichildren with _ | ⟨x, xs⟩
      · simp [is_removable_dneg] at hrem
      · rw [is_removable_dneg, Bool.and_eq_true, decide_eq_true_eq,
          decide_eq_true_eq] at hrem
        have hdnr : remove_double_negation
            (SelElem.mk d (SelElem.mk di (x :: xs) :: rest)) = x := by
          rw [remove_double_negation.eq_def]
          simp only [if_pos hrem.1, if_pos hrem.2]
        rw [hdnr]
        have hfacts := boolNormed_mk_boolean hrem.1.1 h
        have hinner := (boolNormedList_all _ ▸ hfacts.1)
        have hni : boolNormed (SelElem.mk di (x :: xs)) = true := by
          have := List.all_eq_true.mp hinner (SelElem.mk di (x :: xs))
            (List.mem_cons_self _ _)
          simpa using this
        have hifacts := boolNormed_mk_boolean hrem.2.1 hni
        have hx : boolNormed x = true := by
          have := (boolNormedList_all _ ▸ hifacts.1)
          have := List.all_eq_true.mp this x (by simp)
          simpa using this
        exact ⟨hx, hifacts.2.1 x (by simp)⟩
  · have heq := remove_double_negation_of_not_removable e
      (by simpa using hrem)
    rw [heq]
    exact ⟨h, by simpa using hrem⟩

/-- Splicing same-operation children preserves normalization facts and
leaves no same-operation child behind. -/
theorem flatten_same_op_props (op : e_boolean_t) (hop : op ≠ e_boolean_t.bool_not)
    (l : List SelElem)
    (hn : boolNormedList l = true)
    (hr : ∀ c ∈ l, is_removable_dneg c = false) :
    boolNormedList (flatten_same_op op l) = true ∧
    (∀ c ∈ flatten_same_op op l, is_removable_dneg c = false) ∧
    (∀ c ∈ flatten_same_op op l, is_same_op op c = false) := by
  induction l with
  | nil => exact ⟨rfl, fun c hc => absurd hc (by simp [flatten_same_op]), 
      fun c hc => absurd hc (by simp [flatten_same_op])⟩
  | cons c cs ih =>
      rw [boolNormedList, Bool.and_eq_true] at hn
      obtain ⟨ihn, ihr, ihs⟩ := ih hn.2 (fun x hx => hr x (by simp [hx]))
      rw [flatten_same_op]
      by_cases hso : c.data.typ = e_selelem_t.sel_boolean ∧ c.data.boolt = op
      · rw [if_pos hso]
        rcases c with ⟨cd, cchildren⟩
        simp only [SelElem.data] at hso
        have hcfacts := boolNormed_mk_boolean hso.1 hn.1
        simp only [SelElem.data] at hcfacts
        have hsame : ∀ y ∈ cchildren, is_same_op op y = false := by
          have := hcfacts.2.2 (by rw [hso.2]; exact hop)
          rw [hso.2] at this
          exact this
        refine ⟨?_, fun y hy => ?_, fun y hy => ?_⟩
        · rw [boolNormedList_append, Bool.and_eq_true]
          exact ⟨hcfacts.1, ihn⟩
        · rcases List.mem_append.mp hy with hy | hy
          · exact hcfacts.2.1 y hy
          · exact ihr y hy
        · rcases List.mem_append.mp hy with hy | hy
          · exact hsame y hy
          · exact ihs y hy
      · rw [if_neg hso]
        refine ⟨?_, fun y hy => ?_, fun y hy => ?_⟩
        · rw [boolNormedList, Bool.and_eq_true]
          exact ⟨hn.1, ihn⟩
        · rcases List.mem_cons.mp hy with rfl | hy
          · exact hr y (by simp)
          · exact ihr y hy
        · rcases List.mem_cons.mp hy with rfl | hy
          · rw [is_same_op]
            simpa using hso
          · exact ihs y hy

theorem boolNormed_mk_intro {d : SelData} {children : List SelElem}
    (h1 : d.typ = e_selelem_t.sel_subexprref ∨
      (boolNormedList children = true ∧
        ∀ c ∈ children, is_removable_dneg c = false))
    (h2 : d.typ = e_selelem_t.sel_boolean → d.boolt ≠ e_boolean_t.bool_not →
      ∀ c ∈ children, is_same_op d.boolt c = false) :
    boolNormed (SelElem.mk d children) = true := by
  rw [boolNormed, Bool.and_eq_true, Bool.or_eq_true, Bool.or_eq_true]
  constructor
  · rcases h1 with h1 | h1
    · exact Or.inl (by simpa using h1)
    · refine Or.inr ?_
      rw [Bool.and_eq_true]
      exact ⟨h1.1, List.all_eq_true.mpr (fun c hc => by simp [h1.2 c hc])⟩
  · by_cases hb : d.typ = e_selelem_t.sel_boolean
    · by_cases hn : d.boolt = e_boolean_t.bool_not
      · exact Or.inl (by simp [hb, hn])
      · exact Or.inr (List.all_eq_true.mpr
          (fun c hc => by simp [h2 hb hn c hc]))
    · exact Or.inl (by simp [hb])

mutual
/-- `optimize_boolean_expressions` establishes the boolean normal form. -/
theorem boolNormed_optB : ∀ e : SelElem,
    boolNormed (optimize_boolean_expressions e) = true
  | .mk d children => by
    rw [optimize_boolean_expressions]
    by_cases hsr : d.typ = e_selelem_t.sel_subexprref
    · have hb : ¬ (d.typ = e_selelem_t.sel_boolean ∧
          ¬ d.boolt = e_boolean_t.bool_not) := by
        rw [hsr]
        rintro ⟨hcon, -⟩
        cases hcon
      rw [if_pos hsr, if_neg hb]
      exact boolNormed_mk_intro (Or.inl hsr)
        (fun hcon => absurd hsr (by rw [hcon]; intro h; cases h))
    · rw [if_neg hsr]
      have hlist := boolNormed_optB_list children
      by_cases hb : d.typ = e_selelem_t.sel_boolean ∧
          ¬ d.boolt = e_boolean_t.bool_not
      · rw [if_pos hb]
        obtain ⟨hfn, hfr, hfs⟩ :=
          flatten_same_op_props d.boolt hb.2 _ hlist.1 hlist.2
        exact boolNormed_mk_intro (Or.inr ⟨hfn, hfr⟩) (fun _ _ => hfs)
      · rw [if_neg hb]
        refine boolNormed_mk_intro (Or.inr hlist) (fun h1 h2 => ?_)
        exact absurd ⟨h1, h2⟩ hb

theorem boolNormed_optB_list : ∀ l : List SelElem,
    boolNormedList (optimize_boolean_list l) = true ∧
    ∀ c ∈ optimize_boolean_list l, is_removable_dneg c = false
  | [] => ⟨rfl, by intro c hc; rw [optimize_boolean_list] at hc; cases hc⟩
  | c :: cs => by
    have hc := boolNormed_optB c
    have hprops := remove_double_negation_props _ hc
    have ihl := boolNormed_optB_list cs
    rw [optimize_boolean_list]
    constructor
    · rw [boolNormedList, Bool.and_eq_true]
      exact ⟨hprops.1, ihl.1⟩
    · intro y hy
      rcases List.mem_cons.mp hy with rfl | hy
      · exact hprops.2
      · exact ihl.2 y hy
end

theorem flatten_same_op_id (op : e_boolean_t) :
    ∀ l : List SelElem, (∀ c ∈ l, is_same_op op c = false) →
    flatten_same_op op l = l := by
  intro l
  induction l with
  | nil => intro _; rfl
  | cons c cs ih =>
      intro h
      rw [flatten_same_op]
      have hc := h c (by simp)
      rw [is_same_op] at hc
      rw [if_neg (by simpa using hc), ih (fun x hx => h x (by simp [hx]))]

mutual
/-- On an already-normalized tree, `optimize_boolean_expressions` is the
identity. -/
theorem optB_id : ∀ e : SelElem, boolNormed e = true →
    optimize_boolean_expressions e = e
  | .mk d children => by
    intro h
    rw [optimize_boolean_expressions]
    by_cases hsr : d.typ = e_selelem_t.sel_subexprref
    · have hb : ¬ (d.typ = e_selelem_t.sel_boolean ∧
          ¬ d.boolt = e_boolean_t.bool_not) := by
        rw [hsr]
        rintro ⟨hcon, -⟩
        cases hcon
      rw [if_pos hsr, if_neg hb]
    · rw [if_neg hsr]
      rw [boolNormed, Bool.and_eq_true, Bool.or_eq_true, Bool.or_eq_true] at h
      rcases h with ⟨h1 | h1, h2⟩
      · exact absurd (by simpa using h1) hsr
      · rw [Bool.and_eq_true] at h1
        have hlid : optimize_boolean_list children = children :=
          optB_list_id children h1.1
            (fun c hc => by simpa using List.all_eq_true.mp h1.2 c hc)
        by_cases hb : d.typ = e_selelem_t.sel_boolean ∧
            ¬ d.boolt = e_boolean_t.bool_not
        · rw [if_pos hb, hlid]
          rcases h2 with h2 | h2
          · exfalso
            simp [hb.1, hb.2] at h2
          · rw [flatten_same_op_id d.boolt children
              (fun c hc => by simpa using List.all_eq_true.mp h2 c hc)]
        · rw [if_neg hb, hlid]

theorem optB_list_id : ∀ l : List SelElem, boolNormedList l = true →
    (∀ c ∈ l, is_removable_dneg c = false) →
    optimize_boolean_list l = l
  | [] => by
    intro _ _
    rfl
  | c :: cs => by
    intro hn hr
    rw [boolNormedList, Bool.and_eq_true] at hn
    rw [optimize_boolean_list, optB_id c hn.1,
      remove_double_negation_of_not_removable c (hr c (by simp)),
      optB_list_id cs hn.2 (fun x hx => hr x (by simp [hx]))]
end

theorem notUnaryList_all (l : List SelElem) :
    notUnaryList l = l.all notUnary := by
  induction l with
  | nil => rfl
  | cons c cs ih => rw [notUnaryList, List.all_cons, ih]

theorem notUnaryList_append (a b : List SelElem) :
    notUnaryList (a ++ b) = (notUnaryList a && notUnaryList b) := by
  rw [notUnaryList_all, notUnaryList_all, notUnaryList_all, List.all_append]

theorem reorderNormedList_all (l : List SelElem) :
    reorderNormedList l = l.all reorderNormed := by
  induction l with
  | nil => rfl
  | cons c cs ih => rw [reorderNormedList, List.all_cons, ih]

theorem arithNormedList_all (l : List SelElem) :
    arithNormedList l = l.all arithNormed := by
  induction l with
  | nil => rfl
  | cons c cs ih => rw [arithNormedList, List.all_cons, ih]

/-- Every child of a reordered element is the reordering of one of the
original children. -/
theorem reorder_children_mem (d : SelData) (children : List SelElem) :
    ∀ y ∈ (reorder_boolean_static_children (SelElem.mk d children)).children,
      (d.typ = e_selelem_t.sel_subexprref ∧ y ∈ children) ∨
      ∃ c ∈ children, y = reorder_boolean_static_children c := by
  intro y hy
  rw [reorder_mk_eq] at hy
  by_cases hsr : d.typ = e_selelem_t.sel_subexprref
  · rw [if_pos hsr] at hy
    exact Or.inl ⟨hsr, by simpa [SelElem.children] using hy⟩
  · rw [if_neg hsr] at hy
    right
    by_cases hb : d.typ = e_selelem_t.sel_boolean ∧ d.dynamic = true
    · rw [if_pos hb] at hy
      simp only [SelElem.children] at hy
      rcases List.mem_append.mp hy with hy | hy <;>
        · obtain ⟨c, hc, rfl⟩ := List.mem_map.mp hy
          exact ⟨c, List.mem_of_mem_filter hc, rfl⟩
    · rw [if_neg hb] at hy
      simp only [SelElem.children] at hy
      obtain ⟨c, hc, rfl⟩ := List.mem_map.mp hy
      exact ⟨c, hc, rfl⟩

theorem reorder_children_length (e : SelElem) :
    (reorder_boolean_static_children e).children.length =
      e.children.length := by
  rcases e with ⟨d, children⟩
  rw [reorder_mk_eq]
  simp only [SelElem.children]
  by_cases hsr : d.typ = e_selelem_t.sel_subexprref
  · rw [if_pos hsr]
  · rw [if_neg hsr]
    by_cases hb : d.typ = e_selelem_t.sel_boolean ∧ d.dynamic = true
    · rw [if_pos hb]
      rw [List.length_append, List.length_map, List.length_map]
      have hperm : (children.filter (fun c => ! c.data.dynamic)).length +
          (children.filter (fun c => c.data.dynamic)).length =
            children.length := by
        induction children with
        | nil => rfl
        | cons c cs ih =>
            by_cases hc : c.data.dynamic <;>
              simp [List.filter_cons, hc] <;> omega
      exact hperm
    · rw [if_neg hb, List.length_map]

theorem is_same_op_data (op : e_boolean_t) (c c' : SelElem)
    (h : c'.data.typ = c.data.typ) (h2 : c'.data.boolt = c.data.boolt) :
    is_same_op op c' = is_same_op op c := by
  rw [is_same_op, is_same_op, h, h2]

theorem is_removable_dneg_false_of_cond {d : SelData} (l : List SelElem)
    (h : ¬ (d.typ = e_selelem_t.sel_boolean ∧
      d.boolt = e_boolean_t.bool_not)) :
    is_removable_dneg (SelElem.mk d l) = false := by
  rw [is_removable_dneg.eq_def]
  rcases l with _ | ⟨⟨di, il⟩, rest⟩
  · rfl
  · rcases il with _ | ⟨x, xs⟩
    · rfl
    · simp [h]

theorem isEmpty_eq_of_length {α : Type} (a b : List α)
    (h : a.length = b.length) : a.isEmpty = b.isEmpty := by
  cases a <;> cases b <;> simp_all

theorem is_removable_dneg_mk (d di : SelData) (il rest : List SelElem) :
    is_removable_dneg (SelElem.mk d (SelElem.mk di il :: rest)) =
      (decide (d.typ = e_selelem_t.sel_boolean ∧
          d.boolt = e_boolean_t.bool_not) &&
       decide (di.typ = e_selelem_t.sel_boolean ∧
          di.boolt = e_boolean_t.bool_not) &&
       ! il.isEmpty) := by
  rw [is_removable_dneg.eq_def]
  rcases il with _ | ⟨x, xs⟩
  · simp
  · simp

theorem reorder_mk_singleton (d : SelData) (y : SelElem)
    (hb : d.typ = e_selelem_t.sel_boolean) :
    reorder_boolean_static_children (SelElem.mk d [y]) =
      SelElem.mk d [reorder_boolean_static_children y] := by
  rw [reorder_mk_eq]
  have hsr : ¬ d.typ = e_selelem_t.sel_subexprref := by
    rw [hb]
    intro hcon
    cases hcon
  rw [if_neg hsr]
  by_cases hdn : d.typ = e_selelem_t.sel_boolean ∧ d.dynamic = true
  · rw [if_pos hdn]
    by_cases hy : y.data.dynamic <;> simp [List.filter_cons, hy]
  · rw [if_neg hdn]
    rfl

/-- Reordering does not create or destroy a removable double negation,
for elements whose `NOT` nodes are unary. -/
theorem is_removable_dneg_reorder (c : SelElem)
    (hu : notUnary c = true) :
    is_removable_dneg (reorder_boolean_static_children c) =
      is_removable_dneg c := by
  rcases c with ⟨d, children⟩
  by_cases hcond : d.typ = e_selelem_t.sel_boolean ∧
      d.boolt = e_boolean_t.bool_not
  · rw [notUnary, Bool.and_eq_true] at hu
    have hlen : children.length = 1 := by
      have h1 := hu.1
      simp [hcond.1, hcond.2] at h1
      exact h1
    rcases children with _ | ⟨⟨dy, ly⟩, ys⟩
    · cases hlen
    · rcases ys with _ | ⟨y2, ys⟩
      · rw [reorder_mk_singleton d _ hcond.1]
        have hry := reorder_mk_eq dy ly
        rw [hry]
        rw [is_removable_dneg_mk, is_removable_dneg_mk]
        have hlen2 : (if dy.typ = e_selelem_t.sel_subexprref then ly
            else if dy.typ = e_selelem_t.sel_boolean ∧ dy.dynamic = true then
              (ly.filter (fun c => ! c.data.dynamic)).map
                reorder_boolean_static_children ++
              (ly.filter (fun c => c.data.dynamic)).map
                reorder_boolean_static_children
            else ly.map reorder_boolean_static_children).length = ly.length := by
          have := reorder_children_length (SelElem.mk dy ly)
          rw [hry] at this
          simpa [SelElem.children] using this
        rw [isEmpty_eq_of_length _ ly hlen2]
      · cases hlen
  · rw [reorder_mk_eq, is_removable_dneg_false_of_cond _ hcond,
      is_removable_dneg_false_of_cond children hcond]

theorem boolNormed_mk_dest {d : SelData} {children : List SelElem}
    (hsr : d.typ ≠ e_selelem_t.sel_subexprref)
    (h : boolNormed (SelElem.mk d children) = true) :
    boolNormedList children = true ∧
    (∀ c ∈ children, is_removable_dneg c = false) ∧
    (d.typ = e_selelem_t.sel_boolean → d.boolt ≠ e_boolean_t.bool_not →
      ∀ c ∈ children, is_same_op d.boolt c = false) := by
  rw [boolNormed, Bool.and_eq_true, Bool.or_eq_true, Bool.or_eq_true] at h
  rcases h with ⟨h1 | h1, h2⟩
  · exact absurd (by simpa using h1) hsr
  · rw [Bool.and_eq_true] at h1
    refine ⟨h1.1, fun c hc => by
      simpa using List.all_eq_true.mp h1.2 c hc, fun hb hnn c hc => ?_⟩
    rcases h2 with h2 | h2
    · exfalso
      simp [hb, hnn] at h2
    · simpa using List.all_eq_true.mp h2 c hc

theorem notUnary_mk_intro {d : SelData} {l : List SelElem}
    (h1 : d.typ = e_selelem_t.sel_boolean → d.boolt = e_boolean_t.bool_not →
      l.length = 1)
    (h2 : notUnaryList l = true) : notUnary (SelElem.mk d l) = true := by
  rw [notUnary, Bool.and_eq_true]
  refine ⟨?_, h2⟩
  by_cases hb : d.typ = e_selelem_t.sel_boolean
  · by_cases hn : d.boolt = e_boolean_t.bool_not
    · simp [hb, hn, h1 hb hn]
    · simp [hn]
  · simp [hb]

theorem notUnary_mk_dest {d : SelData} {l : List SelElem}
    (h : notUnary (SelElem.mk d l) = true) :
    (d.typ = e_selelem_t.sel_boolean → d.boolt = e_boolean_t.bool_not →
      l.length = 1) ∧ notUnaryList l = true := by
  rw [notUnary, Bool.and_eq_true] at h
  refine ⟨fun hb hn => ?_, h.2⟩
  have h1 := h.1
  simp [hb, hn] at h1
  exact h1

theorem reorderNormed_mk_intro {d : SelData} {l : List SelElem}
    (h1 : d.typ = e_selelem_t.sel_subexprref ∨ reorderNormedList l = true)
    (h2 : d.typ = e_selelem_t.sel_boolean → d.dynamic = true →
      staticsFirst l = true) : reorderNormed (SelElem.mk d l) = true := by
  rw [reorderNormed, Bool.and_eq_true, Bool.or_eq_true, Bool.or_eq_true]
  constructor
  · rcases h1 with h1 | h1
    · exact Or.inl (by simpa using h1)
    · exact Or.inr h1
  · by_cases hb : d.typ = e_selelem_t.sel_boolean
    · by_cases hdyn : d.dynamic = true
      · exact Or.inr (h2 hb hdyn)
      · exact Or.inl (by simp [Bool.eq_false_iff.mpr hdyn])
    · exact Or.inl (by simp [hb])

theorem reorderNormed_mk_dest {d : SelData} {l : List SelElem}
    (hsr : d.typ ≠ e_selelem_t.sel_subexprref)
    (h : reorderNormed (SelElem.mk d l) = true) :
    reorderNormedList l = true ∧
    (d.typ = e_selelem_t.sel_boolean → d.dynamic = true →
      staticsFirst l = true) := by
  rw [reorderNormed, Bool.and_eq_true, Bool.or_eq_true, Bool.or_eq_true] at h
  rcases h with ⟨h1 | h1, h2⟩
  · exact absurd (by simpa using h1) hsr
  · refine ⟨h1, fun hb hdyn => ?_⟩
    rcases h2 with h2 | h2
    · exfalso
      simp [hb, hdyn] at h2
    · exact h2

theorem staticsFirst_append (s t : List SelElem)
    (hs : ∀ y ∈ s, y.data.dynamic = false)
    (ht : ∀ y ∈ t, y.data.dynamic = true) :
    staticsFirst (s ++ t) = true := by
  induction s with
  | nil =>
      rw [List.nil_append]
      cases t with
      | nil => rfl
      | cons c cs =>
          rw [staticsFirst, if_pos (ht c (by simp))]
          exact List.all_eq_true.mpr (fun x hx => ht x (by simp [hx]))
  | cons c cs ih =>
      rw [List.cons_append, staticsFirst,
        if_neg (by rw [hs c (by simp)]; exact fun hcon => nomatch hcon)]
      exact ih (fun y hy => hs y (by simp [hy]))

theorem staticsFirst_partition_id (l : List SelElem)
    (h : staticsFirst l = true) :
    l.filter (fun c => ! c.data.dynamic) ++ l.filter (fun c => c.data.dynamic)
      = l := by
  induction l with
  | nil => rfl
  | cons c cs ih =>
      rw [staticsFirst] at h
      by_cases hc : c.data.dynamic
      · rw [if_pos hc] at h
        have hall : ∀ x ∈ c :: cs, x.data.dynamic = true := by
          intro x hx
          rcases List.mem_cons.mp hx with rfl | hx
          · exact hc
          · exact List.all_eq_true.mp h x hx
        have h1 : (c :: cs).filter (fun c => ! c.data.dynamic) = [] := by
          rw [List.filter_eq_nil_iff]
          intro x hx
          simp [hall x hx]
        have h2 : (c :: cs).filter (fun c => c.data.dynamic) = c :: cs := by
          rw [List.filter_eq_self]
          intro x hx
          simp [hall x hx]
        rw [h1, h2, List.nil_append]
      · rw [if_neg hc] at h
        rw [List.filter_cons, List.filter_cons]
        have hcf : c.data.dynamic = false := Bool.eq_false_iff.mpr hc
        simp only [hcf]
        rw [show (! false) = true from rfl]
        simp only [if_pos trivial]
        rw [show (if false = true then c :: List.filter
          (fun c => c.data.dynamic) cs else List.filter
            (fun c => c.data.dynamic) cs) = List.filter
              (fun c => c.data.dynamic) cs by simp]
        rw [List.cons_append, ih h]

mutual
/-- Reordering preserves the boolean normal form (on unary-`NOT` trees). -/
theorem boolNormed_reorder : ∀ e : SelElem, notUnary e = true →
    boolNormed e = true → boolNormed (reorder_boolean_static_children e) = true
  | .mk d children => by
    intro hu h
    obtain ⟨-, hul⟩ := notUnary_mk_dest hu
    by_cases hsr : d.typ = e_selelem_t.sel_subexprref
    · rw [reorder_mk_eq, if_pos hsr]
      exact boolNormed_mk_intro (Or.inl hsr)
        (fun hb _ => absurd hsr (by rw [hb]; intro hcon; cases hcon))
    · obtain ⟨hn, hr, hs⟩ := boolNormed_mk_dest hsr h
    
      have hpoint := boolNormed_reorder_list children hul hn
      have hform := reorder_mk_eq d children
      rw [hform]
      have hmem : ∀ y ∈ (if d.typ = e_selelem_t.sel_subexprref then children
          else if d.typ = e_selelem_t.sel_boolean ∧ d.dynamic = true then
            (children.filter (fun c => ! c.data.dynamic)).map
              reorder_boolean_static_children ++
            (children.filter (fun c => c.data.dynamic)).map
              reorder_boolean_static_children
          else children.map reorder_boolean_static_children),
          ∃ c ∈ children, y = reorder_boolean_static_children c := by
        intro y hy
        have := reorder_children_mem d children y
          (by rw [hform]; simpa [SelElem.children] using hy)
        rcases this with ⟨hcon, -⟩ | hex
        · exact absurd hcon hsr
        · exact hex
      refine boolNormed_mk_intro (Or.inr ⟨?_, ?_⟩) ?_
      · rw [boolNormedList_all]
        refine List.all_eq_true.mpr (fun y hy => ?_)
        obtain ⟨c, hc, rfl⟩ := hmem y hy
        exact hpoint c hc
      · intro y hy
        obtain ⟨c, hc, rfl⟩ := hmem y hy
        rw [is_removable_dneg_reorder c
          (by simpa using List.all_eq_true.mp (notUnaryList_all _ ▸ hul) c hc)]
        exact hr c hc
      · intro hb hnn y hy
        obtain ⟨c, hc, rfl⟩ := hmem y hy
        rw [is_same_op_data d.boolt c _ (by rw [reorder_data])
          (by rw [reorder_data])]
        exact hs hb hnn c hc

theorem boolNormed_reorder_list : ∀ l : List SelElem,
    notUnaryList l = true → boolNormedList l = true →
    ∀ c ∈ l, boolNormed (reorder_boolean_static_children c) = true
  | [] => by
    intro _ _ c hc
    cases hc
  | c :: cs => by
    intro hu hn y hy
    rw [notUnaryList, Bool.and_eq_true] at hu
    rw [boolNormedList, Bool.and_eq_true] at hn
    rcases List.mem_cons.mp hy with rfl | hy
    · exact boolNormed_reorder y hu.1 hn.1
    · exact boolNormed_reorder_list cs hu.2 hn.2 y hy
end

mutual
/-- Reordering preserves unary `NOT`s. -/
theorem notUnary_reorder : ∀ e : SelElem, notUnary e = true →
    notUnary (reorder_boolean_static_children e) = true
  | .mk d children => by
    intro hu
    obtain ⟨hlen, hul⟩ := notUnary_mk_dest hu
    have hform := reorder_mk_eq d children
    rw [hform]
    refine notUnary_mk_intro (fun hb hn => ?_) ?_
    · have := reorder_children_length (SelElem.mk d children)
      rw [hform] at this
      simp only [SelElem.children] at this
      rw [this]
      exact hlen hb hn
    · by_cases hsr : d.typ = e_selelem_t.sel_subexprref
      · rw [if_pos hsr]
        exact hul
      · have hpoint := notUnary_reorder_list children hul
        rw [notUnaryList_all]
        refine List.all_eq_true.mpr (fun y hy => ?_)
        have := reorder_children_mem d children y
          (by rw [hform]; simpa [SelElem.children] using hy)
        rcases this with ⟨hcon, -⟩ | ⟨c, hc, rfl⟩
        · exact absurd hcon hsr
        · exact hpoint c hc

theorem notUnary_reorder_list : ∀ l : List SelElem,
    notUnaryList l = true →
    ∀ c ∈ l, notUnary (reorder_boolean_static_children c) = true
  | [] => by
    intro _ c hc
    cases hc
  | c :: cs => by
    intro hu y hy
    rw [notUnaryList, Bool.and_eq_true] at hu
    rcases List.mem_cons.mp hy with rfl | hy
    · exact notUnary_reorder y hu.1
    · exact notUnary_reorder_list cs hu.2 y hy
end

mutual
/-- Reordering establishes its own normal form. -/
theorem reorderNormed_reorder : ∀ e : SelElem,
    reorderNormed (reorder_boolean_static_children e) = true
  | .mk d children => by
    have hform := reorder_mk_eq d children
    rw [hform]
    by_cases hsr : d.typ = e_selelem_t.sel_subexprref
    · rw [if_pos hsr]
      exact reorderNormed_mk_intro (Or.inl hsr)
        (fun hb _ => absurd hsr (by rw [hb]; intro hcon; cases hcon))
    · have hpoint := reorderNormed_reorder_list children
      refine reorderNormed_mk_intro (Or.inr ?_) ?_
      · rw [reorderNormedList_all]
        refine List.all_eq_true.mpr (fun y hy => ?_)
        have := reorder_children_mem d children y
          (by rw [hform]; simpa [SelElem.children] using hy)
        rcases this with ⟨hcon, -⟩ | ⟨c, hc, rfl⟩
        · exact absurd hcon hsr
        · exact hpoint c hc
      · intro hb hdyn
        rw [if_neg hsr, if_pos ⟨hb, hdyn⟩]
        refine staticsFirst_append _ _ (fun y hy => ?_) (fun y hy => ?_)
        · obtain ⟨c, hc, rfl⟩ := List.mem_map.mp hy
          rw [reorder_data]
          have := List.of_mem_filter hc
          simpa using this
        · obtain ⟨c, hc, rfl⟩ := List.mem_map.mp hy
          rw [reorder_data]
          have := List.of_mem_filter hc
          simpa using this

theorem reorderNormed_reorder_list : ∀ l : List SelElem,
    ∀ c ∈ l, reorderNormed (reorder_boolean_static_children c) = true
  | [] => by
    intro c hc
    cases hc
  | c :: cs => by
    intro y hy
    rcases List.mem_cons.mp hy with rfl | hy
    · exact reorderNormed_reorder y
    · exact reorderNormed_reorder_list cs y hy
end

mutual
/-- On an already-partitioned tree, reordering is the identity. -/
theorem reorder_id : ∀ e : SelElem, reorderNormed e = true →
    reorder_boolean_static_children e = e
  | .mk d children => by
    intro h
    rw [reorder_mk_eq]
    by_cases hsr : d.typ = e_selelem_t.sel_subexprref
    · rw [if_pos hsr]
    · rw [if_neg hsr]
      obtain ⟨hn, hpart⟩ := reorderNormed_mk_dest hsr h
      have hpoint := reorder_id_list children hn
      by_cases hb : d.typ = e_selelem_t.sel_boolean ∧ d.dynamic = true
      · rw [if_pos hb]
        have hmapA : (children.filter (fun c => ! c.data.dynamic)).map
            reorder_boolean_static_children =
              children.filter (fun c => ! c.data.dynamic) := by
          rw [show (children.filter (fun c => ! c.data.dynamic)).map
              reorder_boolean_static_children =
            (children.filter (fun c => ! c.data.dynamic)).map id from
              List.map_congr_left (fun c hc =>
                hpoint c (List.mem_of_mem_filter hc)), List.map_id]
        have hmapB : (children.filter (fun c => c.data.dynamic)).map
            reorder_boolean_static_children =
              children.filter (fun c => c.data.dynamic) := by
          rw [show (children.filter (fun c => c.data.dynamic)).map
              reorder_boolean_static_children =
            (children.filter (fun c => c.data.dynamic)).map id from
              List.map_congr_left (fun c hc =>
                hpoint c (List.mem_of_mem_filter hc)), List.map_id]
        rw [hmapA, hmapB, staticsFirst_partition_id children
          (hpart hb.1 hb.2)]
      · rw [if_neg hb]
        rw [show children.map reorder_boolean_static_children =
          children.map id from
            List.map_congr_left (fun c hc => hpoint c hc), List.map_id]

theorem reorder_id_list : ∀ l : List SelElem,
    reorderNormedList l = true →
    ∀ c ∈ l, reorder_boolean_static_children c = c
  | [] => by
    intro _ c hc
    cases hc
  | c :: cs => by
    intro hn y hy
    rw [reorderNormedList, Bool.and_eq_true] at hn
    rcases List.mem_cons.mp hy with rfl | hy
    · exact reorder_id y hn.1
    · exact reorder_id_list cs hn.2 y hy
end

theorem notUnary_dnr (e : SelElem) (hu : notUnary e = true) :
    notUnary (remove_double_negation e) = true := by
  by_cases hrem : is_removable_dneg e = true
  · rcases e with ⟨d, children⟩
    rcases children with _ | ⟨⟨di, ichildren⟩, rest⟩
    · simp [is_removable_dneg] at hrem
    · rcases ichildren with _ | ⟨x, xs⟩
      · simp [is_removable_dneg] at hrem
      · rw [is_removable_dneg, Bool.and_eq_true, decide_eq_true_eq,
          decide_eq_true_eq] at hrem
        rw [remove_double_negation.eq_def]
        simp only [if_pos hrem.1, if_pos hrem.2]
        obtain ⟨-, hul⟩ := notUnary_mk_dest hu
        rw [notUnaryList, Bool.and_eq_true] at hul
        obtain ⟨-, hxl⟩ := notUnary_mk_dest hul.1
        rw [notUnaryList, Bool.and_eq_true] at hxl
        exact hxl.1
  · rw [remove_double_negation_of_not_removable e (by simpa using hrem)]
    exact hu

theorem notUnaryList_flatten (op : e_boolean_t) (l : List SelElem)
    (hu : notUnaryList l = true) :
    notUnaryList (flatten_same_op op l) = true := by
  induction l with
  | nil => rfl
  | cons c cs ih =>
      rw [notUnaryList, Bool.and_eq_true] at hu
      rw [flatten_same_op]
      by_cases hso : c.data.typ = e_selelem_t.sel_boolean ∧ c.data.boolt = op
      · rw [if_pos hso, notUnaryList_append, Bool.and_eq_true]
        rcases c with ⟨cd, cch⟩
        exact ⟨(notUnary_mk_dest hu.1).2, ih hu.2⟩
      · rw [if_neg hso, notUnaryList, Bool.and_eq_true]
        exact ⟨hu.1, ih hu.2⟩

mutual
/-- The boolean pass preserves unary `NOT`s. -/
theorem notUnary_optB : ∀ e : SelElem, notUnary e = true →
    notUnary (optimize_boolean_expressions e) = true
  | .mk d children => by
    intro hu
    obtain ⟨hlen, hul⟩ := notUnary_mk_dest hu
    rw [optimize_boolean_expressions]
    by_cases hsr : d.typ = e_selelem_t.sel_subexprref
    · have hb : ¬ (d.typ = e_selelem_t.sel_boolean ∧
          ¬ d.boolt = e_boolean_t.bool_not) := by
        rw [hsr]
        rintro ⟨hcon, -⟩
        cases hcon
      rw [if_pos hsr, if_neg hb]
      exact hu
    · rw [if_neg hsr]
      have hlistfacts := notUnary_optB_list children hul
      by_cases hb : d.typ = e_selelem_t.sel_boolean ∧
          ¬ d.boolt = e_boolean_t.bool_not
      · rw [if_pos hb]
        exact notUnary_mk_intro
          (fun _ hn => absurd hn hb.2)
          (notUnaryList_flatten d.boolt _ hlistfacts)
      · rw [if_neg hb]
        refine notUnary_mk_intro (fun hbt hn => ?_) hlistfacts
        rw [optimize_boolean_list_map, List.length_map]
        exact hlen hbt hn

theorem notUnary_optB_list : ∀ l : List SelElem, notUnaryList l = true →
    notUnaryList (optimize_boolean_list l) = true
  | [] => by
    intro _
    rfl
  | c :: cs => by
    intro hu
    rw [notUnaryList, Bool.and_eq_true] at hu
    rw [optimize_boolean_list, notUnaryList, Bool.and_eq_true]
    exact ⟨notUnary_dnr _ (notUnary_optB c hu.1),
      notUnary_optB_list cs hu.2⟩
end

theorem arithNormed_mk_dest {d : SelData} {l : List SelElem}
    (hsr : d.typ ≠ e_selelem_t.sel_subexprref)
    (h : arithNormed (SelElem.mk d l) = true) :
    arithNormedList l = true ∧
    (d.typ = e_selelem_t.sel_arithmetic →
      ∀ c ∈ l, c.data.vtype = e_selvalue_t.real_value) := by
  rw [arithNormed, Bool.and_eq_true, Bool.or_eq_true, Bool.or_eq_true] at h
  rcases h with ⟨h1 | h1, h2⟩
  · exact absurd (by simpa using h1) hsr
  · refine ⟨h1, fun ha c hc => ?_⟩
    rcases h2 with h2 | h2
    · exfalso
      simp [ha] at h2
    · simpa using List.all_eq_true.mp h2 c hc

theorem arithNormed_mk_intro {d : SelData} {l : List SelElem}
    (h1 : d.typ = e_selelem_t.sel_subexprref ∨ arithNormedList l = true)
    (h2 : d.typ = e_selelem_t.sel_arithmetic →
      ∀ c ∈ l, c.data.vtype = e_selvalue_t.real_value) :
    arithNormed (SelElem.mk d l) = true := by
  rw [arithNormed, Bool.and_eq_true, Bool.or_eq_true, Bool.or_eq_true]
  constructor
  · rcases h1 with h1 | h1
    · exact Or.inl (by simpa using h1)
    · exact Or.inr h1
  · by_cases ha : d.typ = e_selelem_t.sel_arithmetic
    · exact Or.inr (List.all_eq_true.mpr (fun c hc => by simp [h2 ha c hc]))
    · exact Or.inl (by simp [ha])

/-- The conversion loop keeps only real-valued children on success. -/
theorem convert_children_real : ∀ l l' : List SelElem,
    arithmetic_convert_children l = Except.ok l' →
    ∀ c' ∈ l', c'.data.vtype = e_selvalue_t.real_value := by
  intro l
  induction l with
  | nil =>
      intro l' h c' hc'
      rw [arithmetic_convert_children] at h
      cases h
      cases hc'
  | cons c cs ih =>
      intro l' h c' hc'
      rw [arithmetic_convert_children] at h
      by_cases hint : c.data.vtype = e_selvalue_t.int_value
      · rw [if_pos hint] at h
        by_cases hnc : c.data.typ ≠ e_selelem_t.sel_const
        · rw [if_pos hnc] at h
          cases h
        · rw [if_neg hnc] at h
          cases hcs : arithmetic_convert_children cs with
          | error e =>
              rw [hcs] at h
              cases h
          | ok cs' =>
              rw [hcs] at h
              cases h
              rcases List.mem_cons.mp hc' with rfl | hc'
              · rw [int_const_to_real]
                rfl
              · exact ih cs' hcs c' hc'
      · rw [if_neg hint] at h
        by_cases hreal : c.data.vtype = e_selvalue_t.real_value
        · rw [if_neg (by simp [hreal])] at h
          cases hcs : arithmetic_convert_children cs with
          | error e =>
              rw [hcs] at h
              cases h
          | ok cs' =>
              rw [hcs] at h
              cases h
              rcases List.mem_cons.mp hc' with rfl | hc'
              · exact hreal
              · exact ih cs' hcs c' hc'
        · rw [if_pos (by simp [hreal])] at h
          cases h

/-- On an all-real child list the conversion loop is the identity. -/
theorem convert_children_id : ∀ l : List SelElem,
    (∀ c ∈ l, c.data.vtype = e_selvalue_t.real_value) →
    arithmetic_convert_children l = Except.ok l := by
  intro l
  induction l with
  | nil => intro _; rfl
  | cons c cs ih =>
      intro h
      have hc := h c (by simp)
      rw [arithmetic_convert_children,
        if_neg (by rw [hc]; intro hcon; cases hcon),
        if_neg (by simp [hc]), ih (fun x hx => h x (by simp [hx]))]

/-- `arithNormed` only looks at element types and child value types that
the integer-to-real conversion does not disturb below the converted
constant itself. -/
theorem arithNormed_int_const (c : SelElem) :
    arithNormed (int_const_to_real c) = arithNormed c := by
  rcases c with ⟨cd, cch⟩
  rw [int_const_to_real]
  rw [arithNormed, arithNormed]
  rfl

theorem convert_children_normed : ∀ l l' : List SelElem,
    arithmetic_convert_children l = Except.ok l' →
    arithNormedList l = true → arithNormedList l' = true := by
  intro l
  induction l with
  | nil =>
      intro l' h _
      rw [arithmetic_convert_children] at h
      cases h
      rfl
  | cons c cs ih =>
      intro l' h hn
      rw [arithNormedList, Bool.and_eq_true] at hn
      rw [arithmetic_convert_children] at h
      by_cases hint : c.data.vtype = e_selvalue_t.int_value
      · rw [if_pos hint] at h
        by_cases hnc : c.data.typ ≠ e_selelem_t.sel_const
        · rw [if_pos hnc] at h
          cases h
        · rw [if_neg hnc] at h
          cases hcs : arithmetic_convert_children cs with
          | error e =>
              rw [hcs] at h
              cases h
          | ok cs' =>
              rw [hcs] at h
              cases h
              rw [arithNormedList, Bool.and_eq_true]
              exact ⟨by rw [arithNormed_int_const]; exact hn.1,
                ih cs' hcs hn.2⟩
      · rw [if_neg hint] at h
        by_cases hreal : c.data.vtype = e_selvalue_t.real_value
        · rw [if_neg (by simp [hreal])] at h
          cases hcs : arithmetic_convert_children cs with
          | error e =>
              rw [hcs] at h
              cases h
          | ok cs' =>
              rw [hcs] at h
              cases h
              rw [arithNormedList, Bool.and_eq_true]
              exact ⟨hn.1, ih cs' hcs hn.2⟩
        · rw [if_pos (by simp [hreal])] at h
          cases h

mutual
/-- The arithmetic pass establishes its normal form. -/
theorem arithNormed_oae : ∀ (e e' : SelElem),
    optimize_arithmetic_expressions e = Except.ok e' →
    arithNormed e' = true
  | .mk d children, e' => by
    intro h
    rw [optimize_arithmetic_expressions] at h
    by_cases hsr : d.typ = e_selelem_t.sel_subexprref
    · have hna : d.typ ≠ e_selelem_t.sel_arithmetic := by
        rw [hsr]
        intro hcon
        cases hcon
      rw [if_pos hsr] at h
      replace h : (if d.typ ≠ e_selelem_t.sel_arithmetic then
          Except.ok (SelElem.mk d children)
        else match arithmetic_convert_children children with
          | Except.error e => Except.error e
          | Except.ok l2 => Except.ok (SelElem.mk d l2)) = Except.ok e' := h
      rw [if_pos hna] at h
      cases h
      exact arithNormed_mk_intro (Or.inl hsr)
        (fun hcon => absurd hcon hna)
    · rw [if_neg hsr] at h
      cases hl : optimize_arithmetic_list children with
      | error e =>
          rw [hl] at h
          cases h
      | ok l1 =>
          rw [hl] at h
          replace h : (if d.typ ≠ e_selelem_t.sel_arithmetic then
              Except.ok (SelElem.mk d l1)
            else match arithmetic_convert_children l1 with
              | Except.error e => Except.error e
              | Except.ok l2 => Except.ok (SelElem.mk d l2)) =
            Except.ok e' := h
          have hl1 := arithNormed_oae_list children l1 hl
          by_cases ha : d.typ = e_selelem_t.sel_arithmetic
          · rw [if_neg (not_not_intro ha)] at h
            cases hc : arithmetic_convert_children l1 with
            | error e =>
                rw [hc] at h
                cases h
            | ok l2 =>
                rw [hc] at h
                cases h
                exact arithNormed_mk_intro
                  (Or.inr (convert_children_normed l1 l2 hc hl1))
                  (fun _ => convert_children_real l1 l2 hc)
          · rw [if_pos ha] at h
            cases h
            exact arithNormed_mk_intro (Or.inr hl1)
              (fun hcon => absurd hcon ha)

theorem arithNormed_oae_list : ∀ (l l1 : List SelElem),
    optimize_arithmetic_list l = Except.ok l1 →
    arithNormedList l1 = true
  | [], l1 => by
    intro h
    rw [optimize_arithmetic_list] at h
    cases h
    rfl
  | c :: cs, l1 => by
    intro h
    rw [optimize_arithmetic_list] at h
    cases hc : optimize_arithmetic_expressions c with
    | error e =>
        rw [hc] at h
        cases h
    | ok c' =>
        rw [hc] at h
        cases hcs : optimize_arithmetic_list cs with
        | error e =>
            rw [hcs] at h
            cases h
        | ok cs' =>
            rw [hcs] at h
            cases h
            rw [arithNormedList, Bool.and_eq_true]
            exact ⟨arithNormed_oae c c' hc, arithNormed_oae_list cs cs' hcs⟩
end

mutual
/-- On an already-converted tree the arithmetic pass is the identity. -/
theorem oae_id : ∀ e : SelElem, arithNormed e = true →
    optimize_arithmetic_expressions e = Except.ok e
  | .mk d children => by
    intro h
    rw [optimize_arithmetic_expressions]
    by_cases hsr : d.typ = e_selelem_t.sel_subexprref
    · have hna : d.typ ≠ e_selelem_t.sel_arithmetic := by
        rw [hsr]
        intro hcon
        cases hcon
      rw [if_pos hsr]
      show (if d.typ ≠ e_selelem_t.sel_arithmetic then
          Except.ok (SelElem.mk d children)
        else match arithmetic_convert_children children with
          | Except.error e => Except.error e
          | Except.ok l2 => Except.ok (SelElem.mk d l2)) =
        Except.ok (SelElem.mk d children)
      rw [if_pos hna]
    · obtain ⟨hn, hreal⟩ := arithNormed_mk_dest hsr h
      rw [if_neg hsr, oae_id_list children hn]
      show (if d.typ ≠ e_selelem_t.sel_arithmetic then
          Except.ok (SelElem.mk d children)
        else match arithmetic_convert_children children with
          | Except.error e => Except.error e
          | Except.ok l2 => Except.ok (SelElem.mk d l2)) =
        Except.ok (SelElem.mk d children)
      by_cases ha : d.typ = e_selelem_t.sel_arithmetic
      · rw [if_neg (not_not_intro ha), convert_children_id children (hreal ha)]
      · rw [if_pos ha]

theorem oae_id_list : ∀ l : List SelElem, arithNormedList l = true →
    optimize_arithmetic_list l = Except.ok l
  | [] => by
    intro _
    rfl
  | c :: cs => by
    intro hn
    rw [arithNormedList, Bool.and_eq_true] at hn
    rw [optimize_arithmetic_list, oae_id c hn.1, oae_id_list cs hn.2]
end

mutual
theorem shapeEq_refl : ∀ e : SelElem, shapeEq e e = true
  | .mk d l => by
    rw [shapeEq]
    simp [shapeEqList_refl l]

theorem shapeEqList_refl : ∀ l : List SelElem, shapeEqList l l = true
  | [] => rfl
  | c :: cs => by
    rw [shapeEqList]
    simp [shapeEq_refl c, shapeEqList_refl cs]
end

theorem shapeEq_dest {d d' : SelData} {l l' : List SelElem}
    (h : shapeEq (SelElem.mk d l) (SelElem.mk d' l') = true) :
    d.typ = d'.typ ∧ d.boolt = d'.boolt ∧ d.dynamic = d'.dynamic ∧
      shapeEqList l l' = true := by
  rw [shapeEq] at h
  simpa [Bool.and_eq_true, and_assoc] using h

theorem shapeEq_dynamic {c c' : SelElem} (h : shapeEq c c' = true) :
    c.data.dynamic = c'.data.dynamic := by
  rcases c with ⟨d, l⟩
  rcases c' with ⟨d', l'⟩
  exact (shapeEq_dest h).2.2.1

theorem shapeEqList_length : ∀ {l l' : List SelElem},
    shapeEqList l l' = true → l.length = l'.length
  | [], [], _ => rfl
  | [], _ :: _, h => by
    rw [shapeEqList] at h
    cases h
  | _ :: _, [], h => by
    rw [shapeEqList] at h
    cases h
  | x :: xs, y :: ys, h => by
    rw [shapeEqList, Bool.and_eq_true] at h
    simp [shapeEqList_length h.2]

/-- Pointwise-congruent predicates agree on shape-equal lists. -/
theorem shapeEqList_all_congr (p q : SelElem → Bool)
    (hpq : ∀ x x', shapeEq x x' = true → p x = q x') :
    ∀ l l', shapeEqList l l' = true → l.all p = l'.all q
  | [], [], _ => rfl
  | [], _ :: _, h => by
    rw [shapeEqList] at h
    cases h
  | _ :: _, [], h => by
    rw [shapeEqList] at h
    cases h
  | x :: xs, y :: ys, h => by
    rw [shapeEqList, Bool.and_eq_true] at h
    rw [List.all_cons, List.all_cons, hpq x y h.1,
      shapeEqList_all_congr p q hpq xs ys h.2]

theorem is_same_op_shapeEq (op : e_boolean_t) {c c' : SelElem}
    (h : shapeEq c c' = true) : is_same_op op c = is_same_op op c' := by
  rcases c with ⟨d, l⟩
  rcases c' with ⟨d', l'⟩
  obtain ⟨htyp, hboolt, -, -⟩ := shapeEq_dest h
  rw [is_same_op, is_same_op]
  simp only [SelElem.data, htyp, hboolt]

theorem is_removable_dneg_shapeEq : ∀ {c c' : SelElem},
    shapeEq c c' = true → is_removable_dneg c = is_removable_dneg c'
  | .mk d l, .mk d' l', h => by
    obtain ⟨htyp, hboolt, -, hlist⟩ := shapeEq_dest h
    cases l with
    | nil =>
        cases l' with
        | nil => rfl
        | cons y ys =>
            rw [shapeEqList] at hlist
            cases hlist
    | cons x xs =>
        cases l' with
        | nil =>
            rw [shapeEqList] at hlist
            cases hlist
        | cons y ys =>
            rw [shapeEqList, Bool.and_eq_true] at hlist
            rcases x with ⟨dx, lx⟩
            rcases y with ⟨dy, ly⟩
            obtain ⟨hxtyp, hxboolt, -, hxlist⟩ := shapeEq_dest hlist.1
            cases lx with
            | nil =>
                cases ly with
                | nil => rfl
                | cons z zs =>
                    rw [shapeEqList] at hxlist
                    cases hxlist
            | cons z zs =>
                cases ly with
                | nil =>
                    rw [shapeEqList] at hxlist
                    cases hxlist
                | cons w ws =>
                    rw [is_removable_dneg, is_removable_dneg,
                      htyp, hboolt, hxtyp, hxboolt]

theorem staticsFirst_shapeEq : ∀ {l l' : List SelElem},
    shapeEqList l l' = true → staticsFirst l = staticsFirst l'
  | [], [], _ => rfl
  | [], _ :: _, h => by
    rw [shapeEqList] at h
    cases h
  | _ :: _, [], h => by
    rw [shapeEqList] at h
    cases h
  | x :: xs, y :: ys, h => by
    rw [shapeEqList, Bool.and_eq_true] at h
    rw [staticsFirst, staticsFirst, shapeEq_dynamic h.1]
    by_cases hdyn : y.data.dynamic = true
    · rw [if_pos hdyn, if_pos hdyn]
      exact shapeEqList_all_congr _ _
        (fun a a' ha => by rw [shapeEq_dynamic ha]) xs ys h.2
    · rw [if_neg hdyn, if_neg hdyn]
      exact staticsFirst_shapeEq h.2

mutual
/-- `boolNormed` only inspects the shape skeleton, so it transfers along
`shapeEq`. -/
theorem boolNormed_shapeEq : ∀ (e e' : SelElem), shapeEq e e' = true →
    boolNormed e = boolNormed e'
  | .mk d l, .mk d' l' => by
    intro h
    obtain ⟨htyp, hboolt, -, hlist⟩ := shapeEq_dest h
    rw [boolNormed, boolNormed, htyp, hboolt,
      boolNormed_shapeEq_list l l' hlist,
      shapeEqList_all_congr (fun c => ! is_removable_dneg c)
        (fun c => ! is_removable_dneg c)
        (fun a a' ha => by simp [is_removable_dneg_shapeEq ha]) l l' hlist,
      shapeEqList_all_congr (fun c => ! is_same_op d'.boolt c)
        (fun c => ! is_same_op d'.boolt c)
        (fun a a' ha => by
          simp [is_same_op_shapeEq d'.boolt ha]) l l' hlist]

theorem boolNormed_shapeEq_list : ∀ (l l' : List SelElem),
    shapeEqList l l' = true → boolNormedList l = boolNormedList l'
  | [], [] => fun _ => rfl
  | [], _ :: _ => by
    intro h
    rw [shapeEqList] at h
    cases h
  | _ :: _, [] => by
    intro h
    rw [shapeEqList] at h
    cases h
  | x :: xs, y :: ys => by
    intro h
    rw [shapeEqList, Bool.and_eq_true] at h
    rw [boolNormedList, boolNormedList, boolNormed_shapeEq x y h.1,
      boolNormed_shapeEq_list xs ys h.2]
end

mutual
/-- `reorderNormed` only inspects the shape skeleton. -/
theorem reorderNormed_shapeEq : ∀ (e e' : SelElem), shapeEq e e' = true →
    reorderNormed e = reorderNormed e'
  | .mk d l, .mk d' l' => by
    intro h
    obtain ⟨htyp, hboolt, hdyn, hlist⟩ := shapeEq_dest h
    rw [reorderNormed, reorderNormed, htyp, hdyn,
      reorderNormed_shapeEq_list l l' hlist, staticsFirst_shapeEq hlist]

theorem reorderNormed_shapeEq_list : ∀ (l l' : List SelElem),
    shapeEqList l l' = true → reorderNormedList l = reorderNormedList l'
  | [], [] => fun _ => rfl
  | [], _ :: _ => by
    intro h
    rw [shapeEqList] at h
    cases h
  | _ :: _, [] => by
    intro h
    rw [shapeEqList] at h
    cases h
  | x :: xs, y :: ys => by
    intro h
    rw [shapeEqList, Bool.and_eq_true] at h
    rw [reorderNormedList, reorderNormedList, reorderNormed_shapeEq x y h.1,
      reorderNormed_shapeEq_list xs ys h.2]
end

mutual
theorem shapeEq_trans : ∀ {a b c : SelElem},
    shapeEq a b = true → shapeEq b c = true → shapeEq a c = true
  | .mk da la, .mk db lb, .mk dc lc, hab, hbc => by
    obtain ⟨t1, b1, y1, l1⟩ := shapeEq_dest hab
    obtain ⟨t2, b2, y2, l2⟩ := shapeEq_dest hbc
    rw [shapeEq]
    simp [t1, t2, b1, b2, y1, y2, shapeEqList_trans l1 l2]

theorem shapeEqList_trans : ∀ {a b c : List SelElem},
    shapeEqList a b = true → shapeEqList b c = true → shapeEqList a c = true
  | [], [], [], _, _ => rfl
  | [], _ :: _, _, hab, _ => by
    rw [shapeEqList] at hab
    cases hab
  | _ :: _, [], _, hab, _ => by
    rw [shapeEqList] at hab
    cases hab
  | _ :: _, _ :: _, [], _, hbc => by
    rw [shapeEqList] at hbc
    cases hbc
  | x :: xs, y :: ys, z :: zs, hab, hbc => by
    rw [shapeEqList, Bool.and_eq_true] at hab hbc
    rw [shapeEqList, Bool.and_eq_true]
    exact ⟨shapeEq_trans hab.1 hbc.1, shapeEqList_trans hab.2 hbc.2⟩
end

/-- Converting an integer constant to a real constant keeps the shape. -/
theorem int_const_to_real_shape (c : SelElem) :
    shapeEq c (int_const_to_real c) = true := by
  rcases c with ⟨cd, cch⟩
  rw [int_const_to_real, shapeEq]
  simp [SelElem.data, SelElem.children, shapeEqList_refl]

theorem convert_children_shape : ∀ l l' : List SelElem,
    arithmetic_convert_children l = Except.ok l' →
    shapeEqList l l' = true := by
  intro l
  induction l with
  | nil =>
      intro l' h
      rw [arithmetic_convert_children] at h
      cases h
      rfl
  | cons c cs ih =>
      intro l' h
      rw [arithmetic_convert_children] at h
      by_cases hint : c.data.vtype = e_selvalue_t.int_value
      · rw [if_pos hint] at h
        by_cases hnc : c.data.typ ≠ e_selelem_t.sel_const
        · rw [if_pos hnc] at h
          cases h
        · rw [if_neg hnc] at h
          cases hcs : arithmetic_convert_children cs with
          | error e =>
              rw [hcs] at h
              cases h
          | ok cs' =>
              rw [hcs] at h
              cases h
              rw [shapeEqList, Bool.and_eq_true]
              exact ⟨int_const_to_real_shape c, ih cs' hcs⟩
      · rw [if_neg hint] at h
        by_cases hreal : c.data.vtype = e_selvalue_t.real_value
        · rw [if_neg (by simp [hreal])] at h
          cases hcs : arithmetic_convert_children cs with
          | error e =>
              rw [hcs] at h
              cases h
          | ok cs' =>
              rw [hcs] at h
              cases h
              rw [shapeEqList, Bool.and_eq_true]
              exact ⟨shapeEq_refl c, ih cs' hcs⟩
        · rw [if_pos (by simp [hreal])] at h
          cases h

mutual
/-- The arithmetic pass only rewrites values: its output is shape-equal
to its input. -/
theorem oae_shape : ∀ (e e' : SelElem),
    optimize_arithmetic_expressions e = Except.ok e' →
    shapeEq e e' = true
  | .mk d children, e' => by
    intro h
    rw [optimize_arithmetic_expressions] at h
    by_cases hsr : d.typ = e_selelem_t.sel_subexprref
    · have hna : d.typ ≠ e_selelem_t.sel_arithmetic := by
        rw [hsr]
        intro hcon
        cases hcon
      rw [if_pos hsr] at h
      replace h : (if d.typ ≠ e_selelem_t.sel_arithmetic then
          Except.ok (SelElem.mk d children)
        else match arithmetic_convert_children children with
          | Except.error e => Except.error e
          | Except.ok l2 => Except.ok (SelElem.mk d l2)) = Except.ok e' := h
      rw [if_pos hna] at h
      cases h
      exact shapeEq_refl _
    · rw [if_neg hsr] at h
      cases hl : optimize_arithmetic_list children with
      | error e =>
          rw [hl] at h
          cases h
      | ok l1 =>
          rw [hl] at h
          replace h : (if d.typ ≠ e_selelem_t.sel_arithmetic then
              Except.ok (SelElem.mk d l1)
            else match arithmetic_convert_children l1 with
              | Except.error e => Except.error e
              | Except.ok l2 => Except.ok (SelElem.mk d l2)) =
            Except.ok e' := h
          have hl1 := oae_shape_list children l1 hl
          by_cases ha : d.typ = e_selelem_t.sel_arithmetic
          · rw [if_neg (not_not_intro ha)] at h
            cases hc : arithmetic_convert_children l1 with
            | error e =>
                rw [hc] at h
                cases h
            | ok l2 =>
                rw [hc] at h
                cases h
                rw [shapeEq]
                simp [shapeEqList_trans hl1 (convert_children_shape l1 l2 hc)]
          · rw [if_pos ha] at h
            cases h
            rw [shapeEq]
            simp [hl1]

theorem oae_shape_list : ∀ (l l1 : List SelElem),
    optimize_arithmetic_list l = Except.ok l1 →
    shapeEqList l l1 = true
  | [], l1 => by
    intro h
    rw [optimize_arithmetic_list] at h
    cases h
    rfl
  | c :: cs, l1 => by
    intro h
    rw [optimize_arithmetic_list] at h
    cases hc : optimize_arithmetic_expressions c with
    | error e =>
        rw [hc] at h
        cases h
    | ok c' =>
        rw [hc] at h
        cases hcs : optimize_arithmetic_list cs with
        | error e =>
            rw [hcs] at h
            cases h
        | ok cs' =>
            rw [hcs] at h
            cases h
            rw [shapeEqList, Bool.and_eq_true]
            exact ⟨oae_shape c c' hc, oae_shape_list cs cs' hcs⟩
end

/-- **C4.** Idempotence of the normalization sequence (double-negation
removal and same-operator flattening in `optimize_boolean_expressions`,
static-first reordering in `reorder_boolean_static_children`, integer
constant promotion in `optimize_arithmetic_expressions`): on a selection
tree whose `BOOL_NOT` elements are unary (spec: `Not` takes one operand),
rerunning the sequence on its output reproduces that output exactly. -/
theorem normalization_idempotent (e e' : SelElem)
    (hwf : notUnary e = true)
    (h : compiler_normalization e = Except.ok e') :
    compiler_normalization e' = Except.ok e' := by
  rw [compiler_normalization] at h
  have hb1 : boolNormed (optimize_boolean_expressions e) = true :=
    boolNormed_optB e
  have hu1 : notUnary (optimize_boolean_expressions e) = true :=
    notUnary_optB e hwf
  have hb2 : boolNormed
      (reorder_boolean_static_children (optimize_boolean_expressions e)) =
      true :=
    boolNormed_reorder _ hu1 hb1
  have hr2 : reorderNormed
      (reorder_boolean_static_children (optimize_boolean_expressions e)) =
      true :=
    reorderNormed_reorder _
  have hs := oae_shape _ e' h
  have ha' : arithNormed e' = true := arithNormed_oae _ e' h
  have hb' : boolNormed e' = true := by
    rw [← boolNormed_shapeEq _ e' hs]
    exact hb2
  have hr' : reorderNormed e' = true := by
    rw [← reorderNormed_shapeEq _ e' hs]
    exact hr2
  rw [compiler_normalization, optB_id e' hb', reorder_id e' hr',
    oae_id e' ha']

/-- A dynamic expression leaf for the C4 witness. -/
def wDyn : SelElem := SelElem.mk cxData []

/-- A static constant leaf for the C4 witness. -/
def wStat : SelElem :=
  SelElem.mk { cxData with typ := e_selelem_t.sel_const
                           dynamic := false } []

/-- A dynamic boolean AND over the two leaves, dynamic child first. -/
def wIn : SelElem :=
  SelElem.mk { cxData with typ := e_selelem_t.sel_boolean } [wDyn, wStat]

/-- The normalized form of `wIn`: the static child has moved first. -/
def wOut : SelElem :=
  SelElem.mk { cxData with typ := e_selelem_t.sel_boolean } [wStat, wDyn]

theorem normalization_idempotent_witness :
    notUnary wIn = true ∧ compiler_normalization wOut = Except.ok wOut :=
  ⟨by decide, normalization_idempotent wIn wOut (by decide) (by rfl)⟩

/-! ### Bounds soundness for dynamic boolean trees (claim C1) -/

/-- A dynamic Group-valued selection fragment: a leaf is a dynamic
`SEL_EXPRESSION` whose per-frame result is the fixed atom set `atoms`
(evaluating it for a group returns the members of the group in `atoms`);
the booleans are a `BOOL_NOT`, `BOOL_AND` or `BOOL_OR` element holding a
first child and the chain of its remaining siblings.  Every element of
the fragment is dynamic and Group-valued, the case the bounds claim is
about. -/
inductive BExpr where
  | leaf (atoms : List Nat)
  | bnot (e : BExpr)
  | band (e : BExpr) (rest : List BExpr)
  | bor (e : BExpr) (rest : List BExpr)
deriving Repr

mutual
/-- Which atoms a fragment element selects, one atom at a time. -/
def semMem : BExpr → Nat → Bool
  | .leaf atoms, a => decide (a ∈ atoms)
  | .bnot e, a => ! semMem e a
  | .band e rest, a => semMem e a && semMemAll rest a
  | .bor e rest, a => semMem e a || semMemAny rest a

def semMemAll : List BExpr → Nat → Bool
  | [], _ => true
  | c :: cs, a => semMem c a && semMemAll cs a

def semMemAny : List BExpr → Nat → Bool
  | [], _ => false
  | c :: cs, a => semMem c a || semMemAny cs a
end

mutual
/-- Modelled from the spec: the production evaluation of the fragment
with compiler overrides disabled (the drivers `_gmx_sel_evaluate_not`,
`_gmx_sel_evaluate_and`, `_gmx_sel_evaluate_or` live in evaluate.cpp,
which is not in src/): `NOT` evaluates its child for the whole group and
complements the result, `AND` evaluates each later child on the previous
child's result, `OR` evaluates each later child on the part of the group
not yet selected and merges the (disjoint) results. -/
def evalB : BExpr → IndexGroup → IndexGroup
  | .leaf atoms, g => g.filter (fun a => decide (a ∈ atoms))
  | .bnot e, g => gmx_ana_index_difference g (evalB e g)
  | .band e rest, g => evalAndLoop (evalB e g) rest
  | .bor e rest, g =>
      evalOrLoop (evalB e g) (gmx_ana_index_difference g (evalB e g)) rest

/-- Modelled from the spec: the `BOOL_AND` child loop of the production
evaluator; each child narrows the running result. -/
def evalAndLoop : IndexGroup → List BExpr → IndexGroup
  | acc, [] => acc
  | acc, c :: cs => evalAndLoop (evalB c acc) cs

/-- Modelled from the spec: the `BOOL_OR` child loop of the production
evaluator; each child is evaluated on the remaining group, its result
merged into the running result and removed from the remaining group. -/
def evalOrLoop : IndexGroup → IndexGroup → List BExpr → IndexGroup
  | res, _, [] => res
  | res, rem, c :: cs =>
      evalOrLoop (gmx_ana_index_merge res (evalB c rem))
        (gmx_ana_index_difference rem (evalB c rem)) cs
end

/-- Package an analysis bounds pair as the child slice read by
`evaluate_boolean_minmax_grps`.  Every element of the fragment is
dynamic, so `SEL_CDATA_STATIC` is clear and the value and compiler
groups are never touched. -/
def mmc (p : IndexGroup × IndexGroup) : MinMaxChild :=
  { gmin := p.1, gmax := p.2, cstatic := false, vGrp := [], cgrp := [] }

mutual
/-- Modelled from the spec: the bounds `analyze_static` (compiler.cpp
lines 2019-2241) computes for a fragment element evaluated for group
`g`.  A dynamic `SEL_EXPRESSION` leaf gets the trivial bounds (`gmin`
deinitialized to empty, `gmax` a copy of `g`).  A boolean element runs
its children through the evaluation driver — under the
`SEL_CDATA_EVALMAX` discipline of `init_item_compilerdata` (lines
1268-1338) an `AND` child's stored value is replaced by its `gmax`,
which the driver hands to the next sibling, while an `OR` child's stored
value is replaced by its `gmin`, which the driver removes from the
remaining group — and then combines the children's bounds exactly as the
ok-paths of `evaluate_boolean_minmax_grps` do (`bool_and_minmax_loop`,
`bool_or_minmax_loop`, and the two differences for `BOOL_NOT`; the
static-first-child update is inert because no child is static). -/
def analyzeB : BExpr → IndexGroup → IndexGroup × IndexGroup
  | .leaf _, g => ([], g)
  | .bnot e, g =>
      (gmx_ana_index_difference g (analyzeB e g).2,
       gmx_ana_index_difference g (analyzeB e g).1)
  | .band e rest, g =>
      bool_and_minmax_loop (analyzeB e g).1 (analyzeB e g).2
        ((analyzeAndChildren (analyzeB e g).2 rest).map mmc)
  | .bor e rest, g =>
      bool_or_minmax_loop g (analyzeB e g).1 (analyzeB e g).2
        ((analyzeOrChildren
          (gmx_ana_index_difference g (analyzeB e g).1) rest).map mmc)

/-- Modelled from the spec: a later `AND` sibling is analyzed on the
previous sibling's `gmax` (its stored value under `SEL_CDATA_EVALMAX`). -/
def analyzeAndChildren : IndexGroup → List BExpr → List (IndexGroup × IndexGroup)
  | _, [] => []
  | gcur, c :: cs =>
      analyzeB c gcur :: analyzeAndChildren (analyzeB c gcur).2 cs

/-- Modelled from the spec: a later `OR` sibling is analyzed on the group
left after removing the earlier siblings' `gmin`s (their stored values:
`OR` children are not flagged `SEL_CDATA_EVALMAX`). -/
def analyzeOrChildren : IndexGroup → List BExpr → List (IndexGroup × IndexGroup)
  | _, [] => []
  | rem, c :: cs =>
      analyzeB c rem ::
        analyzeOrChildren (gmx_ana_index_difference rem (analyzeB c rem).1) cs
end

/-- The fragment's `BOOL_AND` bounds really are computed by the
translated `evaluate_boolean_minmax_grps`: with the (never static) first
child packaged as a `MinMaxChild`, it returns exactly the pair `analyzeB`
assigns to the element, leaving the first child unchanged. -/
theorem analyzeB_eq_minmax_and (e : BExpr) (rest : List BExpr)
    (g : IndexGroup) :
    evaluate_boolean_minmax_grps e_boolean_t.bool_and g (mmc (analyzeB e g))
        ((analyzeAndChildren (analyzeB e g).2 rest).map mmc) =
      Except.ok ((analyzeB (.band e rest) g).1,
        (analyzeB (.band e rest) g).2, mmc (analyzeB e g)) := rfl

/-- The fragment's `BOOL_OR` bounds really are computed by the translated
`evaluate_boolean_minmax_grps`. -/
theorem analyzeB_eq_minmax_or (e : BExpr) (rest : List BExpr)
    (g : IndexGroup) :
    evaluate_boolean_minmax_grps e_boolean_t.bool_or g (mmc (analyzeB e g))
        ((analyzeOrChildren
          (gmx_ana_index_difference g (analyzeB e g).1) rest).map mmc) =
      Except.ok ((analyzeB (.bor e rest) g).1,
        (analyzeB (.bor e rest) g).2, mmc (analyzeB e g)) := rfl

/-- The fragment's `BOOL_NOT` bounds really are computed by the
translated `evaluate_boolean_minmax_grps`. -/
theorem analyzeB_eq_minmax_not (e : BExpr) (g : IndexGroup) :
    evaluate_boolean_minmax_grps e_boolean_t.bool_not g (mmc (analyzeB e g))
        [] =
      Except.ok ((analyzeB (.bnot e) g).1,
        (analyzeB (.bnot e) g).2, mmc (analyzeB e g)) := rfl

mutual
/-- The production evaluation selects exactly the members of the group
matching the elementwise semantics. -/
theorem mem_evalB : ∀ (e : BExpr) (g : IndexGroup) (x : Nat),
    x ∈ evalB e g ↔ x ∈ g ∧ semMem e x = true
  | .leaf atoms, g, x => by
    rw [evalB, semMem]
    simp
  | .bnot e, g, x => by
    rw [evalB, semMem, mem_index_difference]
    constructor
    · rintro ⟨hg, hne⟩
      refine ⟨hg, ?_⟩
      by_cases hs : semMem e x = true
      · exact absurd ((mem_evalB e g x).mpr ⟨hg, hs⟩) hne
      · simp [hs]
    · rintro ⟨hg, hns⟩
      refine ⟨hg, fun hmem => ?_⟩
      have := ((mem_evalB e g x).mp hmem).2
      simp [this] at hns
  | .band e rest, g, x => by
    rw [evalB, semMem, mem_evalAndLoop rest (evalB e g) x,
      mem_evalB e g x, Bool.and_eq_true]
    tauto
  | .bor e rest, g, x => by
    rw [evalB, semMem,
      mem_evalOrLoop rest (evalB e g)
        (gmx_ana_index_difference g (evalB e g)) x,
      mem_index_difference, mem_evalB e g x, Bool.or_eq_true]
    by_cases hs : semMem e x = true
    · simp [hs]
    · simp [hs]

theorem mem_evalAndLoop : ∀ (cs : List BExpr) (acc : IndexGroup) (x : Nat),
    x ∈ evalAndLoop acc cs ↔ x ∈ acc ∧ semMemAll cs x = true
  | [], acc, x => by
    rw [evalAndLoop, semMemAll]
    simp
  | c :: cs, acc, x => by
    rw [evalAndLoop, mem_evalAndLoop cs (evalB c acc) x, mem_evalB c acc x,
      semMemAll, Bool.and_eq_true]
    tauto

theorem mem_evalOrLoop : ∀ (cs : List BExpr) (res rem : IndexGroup) (x : Nat),
    x ∈ evalOrLoop res rem cs ↔
      x ∈ res ∨ (x ∈ rem ∧ semMemAny cs x = true)
  | [], res, rem, x => by
    rw [evalOrLoop, semMemAny]
    simp
  | c :: cs, res, rem, x => by
    rw [evalOrLoop,
      mem_evalOrLoop cs (gmx_ana_index_merge res (evalB c rem))
        (gmx_ana_index_difference rem (evalB c rem)) x,
      mem_index_merge, mem_index_difference, mem_evalB c rem x,
      semMemAny, Bool.or_eq_true]
    by_cases hs : semMem c x = true
    · simp [hs]
    · simp [hs]
end

mutual
/-- Soundness of the analysis bounds on the fragment: for a sorted
evaluation group, `gmin` holds only members of the group matching the
semantics, and every member of the group matching the semantics lands in
`gmax`. -/
theorem boundsB : ∀ (e : BExpr) (g : IndexGroup), IsIndexGroup g →
    IsIndexGroup (analyzeB e g).1 ∧ IsIndexGroup (analyzeB e g).2 ∧
    (∀ x ∈ (analyzeB e g).1, x ∈ g ∧ semMem e x = true) ∧
    (∀ x ∈ g, semMem e x = true → x ∈ (analyzeB e g).2)
  | .leaf atoms, g => by
    intro hg
    refine ⟨List.sorted_nil, hg, ?_, ?_⟩
    · intro x hx
      cases hx
    · intro x hx _
      exact hx
  | .bnot e, g => by
    intro hg
    obtain ⟨h1, h2, hlo, hhi⟩ := boundsB e g hg
    simp only [analyzeB]
    refine ⟨isIndexGroup_difference _ hg, isIndexGroup_difference _ hg,
      ?_, ?_⟩
    · intro x hx
      obtain ⟨hxg, hxn⟩ := mem_index_difference.mp hx
      refine ⟨hxg, ?_⟩
      rw [semMem, Bool.not_eq_true']
      by_cases hs : semMem e x = true
      · exact absurd (hhi x hxg hs) hxn
      · simpa using hs
    · intro x hxg hsem
      rw [semMem, Bool.not_eq_true'] at hsem
      refine mem_index_difference.mpr ⟨hxg, fun hmem => ?_⟩
      have := (hlo x hmem).2
      rw [this] at hsem
      cases hsem
  | .band e rest, g => by
    intro hg
    obtain ⟨h1, h2, hlo, hhi⟩ := boundsB e g hg
    obtain ⟨j1, j2, jlo, jhi⟩ :=
      boundsAndLoop rest (analyzeB e g).2 (analyzeB e g).1 (analyzeB e g).2
        h2 h1 h2 (fun x hx => hhi x (hlo x hx).1 (hlo x hx).2)
    simp only [analyzeB]
    refine ⟨j1, j2, ?_, ?_⟩
    · intro x hx
      obtain ⟨hx1, hall⟩ := jlo x hx
      refine ⟨(hlo x hx1).1, ?_⟩
      rw [semMem, Bool.and_eq_true]
      exact ⟨(hlo x hx1).2, hall⟩
    · intro x hxg hsem
      rw [semMem, Bool.and_eq_true] at hsem
      exact jhi x (hhi x hxg hsem.1) (hhi x hxg hsem.1) hsem.2
  | .bor e rest, g => by
    intro hg
    obtain ⟨h1, h2, hlo, hhi⟩ := boundsB e g hg
    obtain ⟨j1, j2, jii, jiii, jiv⟩ :=
      boundsOrLoop rest g (gmx_ana_index_difference g (analyzeB e g).1)
        (analyzeB e g).1 (analyzeB e g).2
        hg (isIndexGroup_difference _ hg) h1 h2
        (fun x hx => (mem_index_difference.mp hx).1)
        (fun x hx => hhi x (hlo x hx).1 (hlo x hx).2)
        (fun x hx => (hlo x hx).1)
        (fun x hx hxr => (mem_index_difference.mp hxr).2 hx)
        (fun x hxg hxr => by
          by_cases hx1 : x ∈ (analyzeB e g).1
          · exact hhi x hxg (hlo x hx1).2
          · exact absurd (mem_index_difference.mpr ⟨hxg, hx1⟩) hxr)
    simp only [analyzeB]
    refine ⟨j1, j2, ?_, ?_⟩
    · intro x hx
      rcases jii x hx with hx1 | ⟨hxr, hany⟩
      · refine ⟨(hlo x hx1).1, ?_⟩
        rw [semMem, Bool.or_eq_true]
        exact Or.inl (hlo x hx1).2
      · refine ⟨(mem_index_difference.mp hxr).1, ?_⟩
        rw [semMem, Bool.or_eq_true]
        exact Or.inr hany
    · intro x hxg hsem
      rw [semMem, Bool.or_eq_true] at hsem
      rcases hsem with hse | hany
      · exact jiv x (hhi x hxg hse)
      · by_cases hxr : x ∈ gmx_ana_index_difference g (analyzeB e g).1
        · exact jiii x hxr hany
        · by_cases hx1 : x ∈ (analyzeB e g).1
          · exact jiv x (hhi x hxg (hlo x hx1).2)
          · exact absurd (mem_index_difference.mpr ⟨hxg, hx1⟩) hxr

/-- Soundness of the `BOOL_AND` accumulation loop over the analyzed
sibling chain. -/
theorem boundsAndLoop : ∀ (rest : List BExpr) (gcur gmin gmax : IndexGroup),
    IsIndexGroup gcur → IsIndexGroup gmin → IsIndexGroup gmax →
    (∀ x ∈ gmin, x ∈ gmax) →
    IsIndexGroup (bool_and_minmax_loop gmin gmax
      ((analyzeAndChildren gcur rest).map mmc)).1 ∧
    IsIndexGroup (bool_and_minmax_loop gmin gmax
      ((analyzeAndChildren gcur rest).map mmc)).2 ∧
    (∀ x ∈ (bool_and_minmax_loop gmin gmax
        ((analyzeAndChildren gcur rest).map mmc)).1,
      x ∈ gmin ∧ semMemAll rest x = true) ∧
    (∀ x ∈ gmax, x ∈ gcur → semMemAll rest x = true →
      x ∈ (bool_and_minmax_loop gmin gmax
        ((analyzeAndChildren gcur rest).map mmc)).2)
  | [], gcur, gmin, gmax => by
    intro _ hgmin hgmax _
    refine ⟨hgmin, hgmax, ?_, ?_⟩
    · intro x hx
      exact ⟨hx, rfl⟩
    · intro x hx _ _
      exact hx
  | c :: cs, gcur, gmin, gmax => by
    intro hgcur hgmin hgmax hmm
    obtain ⟨hr1, hr2, hrlo, hrhi⟩ := boundsB c gcur hgcur
    rw [analyzeAndChildren, List.map_cons]
    by_cases hpos : gmax.length > 0
    · rw [bool_and_minmax_loop, if_pos hpos]
      simp only [mmc]
      obtain ⟨ih1, ih2, ihlo, ihhi⟩ :=
        boundsAndLoop cs (analyzeB c gcur).2
          (gmx_ana_index_intersection gmin (analyzeB c gcur).1)
          (gmx_ana_index_intersection gmax (analyzeB c gcur).2)
          hr2 (isIndexGroup_intersection _ hgmin)
          (isIndexGroup_intersection _ hgmax)
          (fun x hx => by
            obtain ⟨hxg, hxr⟩ := mem_index_intersection.mp hx
            exact mem_index_intersection.mpr
              ⟨hmm x hxg, hrhi x (hrlo x hxr).1 (hrlo x hxr).2⟩)
      refine ⟨ih1, ih2, ?_, ?_⟩
      · intro x hx
        obtain ⟨hx1, hall⟩ := ihlo x hx
        obtain ⟨hxg, hxr⟩ := mem_index_intersection.mp hx1
        refine ⟨hxg, ?_⟩
        rw [semMemAll, Bool.and_eq_true]
        exact ⟨(hrlo x hxr).2, hall⟩
      · intro x hxmax hxcur hall
        rw [semMemAll, Bool.and_eq_true] at hall
        have hxr2 : x ∈ (analyzeB c gcur).2 := hrhi x hxcur hall.1
        exact ihhi x (mem_index_intersection.mpr ⟨hxmax, hxr2⟩) hxr2 hall.2
    · have hnil : gmax = [] := by
        cases gmax with
        | nil => rfl
        | cons y ys => simp at hpos
      subst hnil
      rw [bool_and_minmax_loop, if_neg hpos]
      refine ⟨hgmin, hgmax, ?_, ?_⟩
      · intro x hx
        exact absurd (hmm x hx) (List.not_mem_nil x)
      · intro x hx
        exact absurd hx (List.not_mem_nil x)

/-- Soundness of the `BOOL_OR` accumulation loop over the analyzed
sibling chain: `rem` is the part of `g` not yet certainly selected,
`gmin` collects the certain part, `gmax` the possible part. -/
theorem boundsOrLoop : ∀ (rest : List BExpr) (g rem gmin gmax : IndexGroup),
    IsIndexGroup g → IsIndexGroup rem → IsIndexGroup gmin →
    IsIndexGroup gmax →
    (∀ x ∈ rem, x ∈ g) →
    (∀ x ∈ gmin, x ∈ gmax) →
    (∀ x ∈ gmin, x ∈ g) →
    GrpDisjoint gmin rem →
    (∀ x ∈ g, x ∉ rem → x ∈ gmax) →
    IsIndexGroup (bool_or_minmax_loop g gmin gmax
      ((analyzeOrChildren rem rest).map mmc)).1 ∧
    IsIndexGroup (bool_or_minmax_loop g gmin gmax
      ((analyzeOrChildren rem rest).map mmc)).2 ∧
    (∀ x ∈ (bool_or_minmax_loop g gmin gmax
        ((analyzeOrChildren rem rest).map mmc)).1,
      x ∈ gmin ∨ (x ∈ rem ∧ semMemAny rest x = true)) ∧
    (∀ x ∈ rem, semMemAny rest x = true →
      x ∈ (bool_or_minmax_loop g gmin gmax
        ((analyzeOrChildren rem rest).map mmc)).2) ∧
    (∀ x ∈ gmax, x ∈ (bool_or_minmax_loop g gmin gmax
      ((analyzeOrChildren rem rest).map mmc)).2)
  | [], g, rem, gmin, gmax => by
    intro _ _ hgmin hgmax _ _ _ _ _
    refine ⟨hgmin, hgmax, ?_, ?_, ?_⟩
    · intro x hx
      exact Or.inl hx
    · intro x _ hany
      rw [semMemAny] at hany
      cases hany
    · intro x hx
      exact hx
  | c :: cs, g, rem, gmin, gmax => by
    intro hg hrem hgmin hgmax hremg hmm hming hdisj hinvU
    obtain ⟨hr1, hr2, hrlo, hrhi⟩ := boundsB c rem hrem
    rw [analyzeOrChildren, List.map_cons]
    by_cases hpos : gmin.length < g.length
    · rw [bool_or_minmax_loop, if_pos hpos]
      simp only [mmc]
      obtain ⟨ih1, ih2, ihii, ihiii, ihiv⟩ :=
        boundsOrLoop cs g
          (gmx_ana_index_difference rem (analyzeB c rem).1)
          (gmx_ana_index_merge gmin (analyzeB c rem).1)
          (gmx_ana_index_union gmax (analyzeB c rem).2)
          hg (isIndexGroup_difference _ hrem)
          (isIndexGroup_merge hgmin hr1
            (fun x hx hxr1 => hdisj x hx (hrlo x hxr1).1))
          (isIndexGroup_union hgmax hr2)
          (fun x hx => hremg x (mem_index_difference.mp hx).1)
          (fun x hx => by
            rcases mem_index_merge.mp hx with h | h
            · exact mem_index_union.mpr (Or.inl (hmm x h))
            · exact mem_index_union.mpr
                (Or.inr (hrhi x (hrlo x h).1 (hrlo x h).2)))
          (fun x hx => by
            rcases mem_index_merge.mp hx with h | h
            · exact hming x h
            · exact hremg x (hrlo x h).1)
          (fun x hx hxr => by
            obtain ⟨hxrem, hxn1⟩ := mem_index_difference.mp hxr
            rcases mem_index_merge.mp hx with h | h
            · exact hdisj x h hxrem
            · exact hxn1 h)
          (fun x hxg hxr => by
            by_cases hxrem : x ∈ rem
            · have hx1 : x ∈ (analyzeB c rem).1 := by
                by_cases hx1 : x ∈ (analyzeB c rem).1
                · exact hx1
                · exact absurd (mem_index_difference.mpr ⟨hxrem, hx1⟩) hxr
              exact mem_index_union.mpr
                (Or.inr (hrhi x hxrem (hrlo x hx1).2))
            · exact mem_index_union.mpr (Or.inl (hinvU x hxg hxrem)))
      refine ⟨ih1, ih2, ?_, ?_, ?_⟩
      · intro x hx
        rcases ihii x hx with hx1 | ⟨hxr, hany⟩
        · rcases mem_index_merge.mp hx1 with h | h
          · exact Or.inl h
          · refine Or.inr ⟨(hrlo x h).1, ?_⟩
            rw [semMemAny, Bool.or_eq_true]
            exact Or.inl (hrlo x h).2
        · refine Or.inr ⟨(mem_index_difference.mp hxr).1, ?_⟩
          rw [semMemAny, Bool.or_eq_true]
          exact Or.inr hany
      · intro x hxrem hany
        rw [semMemAny, Bool.or_eq_true] at hany
        rcases hany with hsc | hcs
        · exact ihiv x (mem_index_union.mpr (Or.inr (hrhi x hxrem hsc)))
        · by_cases hx1 : x ∈ (analyzeB c rem).1
          · exact ihiv x
              (mem_index_union.mpr (Or.inr (hrhi x hxrem (hrlo x hx1).2)))
          · exact ihiii x (mem_index_difference.mpr ⟨hxrem, hx1⟩) hcs
      · intro x hx
        exact ihiv x (mem_index_union.mpr (Or.inl hx))
    · rw [bool_or_minmax_loop, if_neg hpos]
      have hsl := indexGroup_sublist hgmin hg hming
      have heq : gmin = g :=
        hsl.eq_of_length
          (Nat.le_antisymm hsl.length_le (by omega))
      refine ⟨hgmin, hgmax, ?_, ?_, ?_⟩
      · intro x hx
        exact Or.inl hx
      · intro x hxrem _
        exact absurd hxrem (hdisj x (heq ▸ hremg x hxrem))
      · intro x hx
        exact hx
end

/-- **C1.** Bounds soundness: for every dynamic Group-valued element of
the boolean fragment and every sorted evaluation group `g` handed to it
during the `analyze_static` pass, the computed `gmin` is contained in the
result the element's real (non-analysis) evaluation produces for `g`,
and that result is contained in the computed `gmax`. -/
theorem bounds_soundness (e : BExpr) (g : IndexGroup)
    (hg : IsIndexGroup g) :
    (∀ x ∈ (analyzeB e g).1, x ∈ evalB e g) ∧
    (∀ x ∈ evalB e g, x ∈ (analyzeB e g).2) := by
  obtain ⟨-, -, hlo, hhi⟩ := boundsB e g hg
  constructor
  · intro x hx
    obtain ⟨hxg, hsem⟩ := hlo x hx
    exact (mem_evalB e g x).mpr ⟨hxg, hsem⟩
  · intro x hx
    obtain ⟨hxg, hsem⟩ := (mem_evalB e g x).mp hx
    exact hhi x hxg hsem

/-- A concrete fragment exercising all three boolean operations:
`leaf {0, 2} OR (NOT leaf {1}) OR (leaf {0, 1} AND leaf {1, 2})`. -/
def wBounds : BExpr :=
  .bor (.leaf [0, 2]) [.bnot (.leaf [1]), .band (.leaf [0, 1]) [.leaf [1, 2]]]

theorem bounds_soundness_witness :
    IsIndexGroup [0, 1, 2] ∧
    ((∀ x ∈ (analyzeB wBounds [0, 1, 2]).1, x ∈ evalB wBounds [0, 1, 2]) ∧
     (∀ x ∈ evalB wBounds [0, 1, 2], x ∈ (analyzeB wBounds [0, 1, 2]).2)) :=
  ⟨by decide, bounds_soundness wBounds [0, 1, 2] (by decide)⟩

end GmxSel
